import Mathlib

/-!
# Verification of `rsync_backup.py`

A shallow embedding of the core of the `rsync_backup` program (task system,
sync engine, recursive remove, stage manager) together with proofs and
refutations of the specification's claims about it.

Conventions of the embedding:
* Python `int` is modelled as `Int` (or `Nat` where the source only ever
  holds non-negative counts), with Python's `int(a / b)` on integers being
  truncation towards zero (`Int.tdiv`), raising `ZeroDivisionError` for `b = 0`.
* Filesystem trees are values of an inductive type `FSTree`; file content is
  not modelled (the program compares only node type, integer-second mtime and
  permission bits, and copies are metadata-faithful).  Modification times are
  stored as integers: the program only ever compares `int(st_mtime)`.
* The task system executes `add_or_run` tasks synchronously (a legal schedule:
  every probed queue may fail its try-lock); on-disk state touched by distinct
  tasks is disjoint by construction, so this sequentialisation is faithful.
-/

set_option maxHeartbeats 1000000

namespace RsyncBackup

/-! ## Decimal rendering

Model of Python's `str(i)` for a non-negative integer `i`, used to build
snapshot names `f"{stage_name}.{stage_num}"`.  Defined via `Nat.digits` so
that injectivity and digit-only-ness are provable. -/

/-- Digits of `n`, most significant first, by structural recursion on a fuel
bound (so that the kernel can evaluate it); `natStrAux fuel n` is correct for
`n ≤ fuel`. -/
def natStrAux : Nat → Nat → List Char
  | 0, _ => []
  | _ + 1, 0 => []
  | fuel + 1, n + 1 =>
    natStrAux fuel ((n + 1) / 10) ++ [Nat.digitChar ((n + 1) % 10)]

/-- Model of Python `str(n)` for `n : Nat`: decimal digits, most significant
first, `"0"` for zero. -/
def natStr (n : Nat) : String :=
  if n = 0 then "0" else String.mk (natStrAux n n)

theorem natStrAux_eq : ∀ (fuel n : Nat), n ≤ fuel →
    natStrAux fuel n = ((Nat.digits 10 n).reverse).map Nat.digitChar := by
  intro fuel
  induction fuel with
  | zero =>
    intro n hn
    interval_cases n
    simp [natStrAux]
  | succ f ih =>
    intro n hn
    match n with
    | 0 => simp [natStrAux]
    | m + 1 =>
      rw [natStrAux]
      have hdivle : (m + 1) / 10 ≤ f := by
        have := Nat.div_lt_self (Nat.succ_pos m) (by norm_num : 1 < 10)
        omega
      rw [ih ((m + 1) / 10) hdivle]
      rw [Nat.digits_def' (by norm_num : (1:ℕ) < 10) (Nat.succ_pos m)]
      simp

theorem natStr_eq_digits (n : Nat) :
    natStr n = if n = 0 then "0"
      else String.mk (((Nat.digits 10 n).reverse).map Nat.digitChar) := by
  unfold natStr
  by_cases h : n = 0
  · simp [h]
  · simp only [h, if_false]
    rw [natStrAux_eq n n (Nat.le_refl n)]

theorem digitChar_inj_lt10 : ∀ a, a < 10 → ∀ b, b < 10 →
    Nat.digitChar a = Nat.digitChar b → a = b := by decide

theorem digitChar_isDigit : ∀ a, a < 10 → (Nat.digitChar a).isDigit = true := by decide

/-- Every character of `natStr n` is a decimal digit. -/
theorem natStr_isDigit (n : Nat) : ∀ c ∈ (natStr n).data, c.isDigit = true := by
  intro c hc
  rw [natStr_eq_digits] at hc
  by_cases h : n = 0
  · simp [h] at hc
    subst hc; decide
  · simp [h] at hc
    obtain ⟨d, hd, rfl⟩ := hc
    exact digitChar_isDigit d (Nat.digits_lt_base (by norm_num) hd)

theorem natStr_digits_only (n : Nat) : ∀ c ∈ (natStr n).data, c ≠ '.' := by
  intro c hc
  have := natStr_isDigit n c hc
  intro hdot
  subst hdot
  simp [Char.isDigit] at this

theorem map_digitChar_inj {l₁ l₂ : List Nat} (h₁ : ∀ x ∈ l₁, x < 10)
    (h₂ : ∀ x ∈ l₂, x < 10) (h : l₁.map Nat.digitChar = l₂.map Nat.digitChar) :
    l₁ = l₂ := by
  induction l₁ generalizing l₂ with
  | nil => cases l₂ <;> simp_all
  | cons a t ih =>
    cases l₂ with
    | nil => simp_all
    | cons b t₂ =>
      simp only [List.map_cons, List.cons.injEq] at h
      have ha := h₁ a (by simp)
      have hb := h₂ b (by simp)
      have := digitChar_inj_lt10 a ha b hb h.1
      subst this
      simp only [List.cons.injEq, true_and]
      exact ih (fun x hx => h₁ x (by simp [hx])) (fun x hx => h₂ x (by simp [hx])) h.2

theorem natStr_injective : Function.Injective natStr := by
  intro m n h
  rw [natStr_eq_digits, natStr_eq_digits] at h
  by_cases hm : m = 0 <;> by_cases hn : n = 0
  · omega
  · exfalso
    simp only [hm, if_true, if_neg hn] at h
    have hdata := congrArg String.data h
    simp only [String.data] at hdata
    -- "0".data = ['0']; so the digit list of n has length 1 and its sole
    -- digit renders as '0', forcing that digit to be 0, impossible for the
    -- leading digit of a positive number.
    have : ('0' : Char) :: [] = ((Nat.digits 10 n).reverse).map Nat.digitChar := hdata
    cases hrev : (Nat.digits 10 n).reverse with
    | nil =>
      rw [hrev] at this; simp at this
    | cons d t =>
      rw [hrev] at this
      cases t with
      | cons _ _ => simp at this
      | nil =>
        simp only [List.map_cons, List.map_nil, List.cons.injEq, and_true] at this
        have hd10 : d < 10 := by
          have : d ∈ Nat.digits 10 n := by
            have : d ∈ (Nat.digits 10 n).reverse := by rw [hrev]; simp
            simpa using this
          exact Nat.digits_lt_base (by norm_num) this
        have hd0 : d = 0 := (digitChar_inj_lt10 0 (by norm_num) d hd10 this).symm
        subst hd0
        have hlast : (Nat.digits 10 n).getLast? = some 0 := by
          rw [← List.head?_reverse, hrev]; rfl
        have := Nat.getLast_digit_ne_zero 10 hn
        rw [List.getLast?_eq_getLast _ (by
          intro hnil; rw [hnil] at hrev; simp at hrev)] at hlast
        simp only [Option.some.injEq] at hlast
        exact this hlast
  · exfalso
    simp only [hn, if_true, if_neg hm] at h
    have hdata := congrArg String.data h.symm
    simp only [String.data] at hdata
    have : ('0' : Char) :: [] = ((Nat.digits 10 m).reverse).map Nat.digitChar := hdata
    cases hrev : (Nat.digits 10 m).reverse with
    | nil =>
      rw [hrev] at this; simp at this
    | cons d t =>
      rw [hrev] at this
      cases t with
      | cons _ _ => simp at this
      | nil =>
        simp only [List.map_cons, List.map_nil, List.cons.injEq, and_true] at this
        have hd10 : d < 10 := by
          have : d ∈ Nat.digits 10 m := by
            have : d ∈ (Nat.digits 10 m).reverse := by rw [hrev]; simp
            simpa using this
          exact Nat.digits_lt_base (by norm_num) this
        have hd0 : d = 0 := (digitChar_inj_lt10 0 (by norm_num) d hd10 this).symm
        subst hd0
        have hlast : (Nat.digits 10 m).getLast? = some 0 := by
          rw [← List.head?_reverse, hrev]; rfl
        have := Nat.getLast_digit_ne_zero 10 hm
        rw [List.getLast?_eq_getLast _ (by
          intro hnil; rw [hnil] at hrev; simp at hrev)] at hlast
        simp only [Option.some.injEq] at hlast
        exact this hlast
  · simp only [if_neg hm, if_neg hn] at h
    have hdata := congrArg String.data h
    simp only [String.data] at hdata
    have hmap := map_digitChar_inj
      (fun x hx => Nat.digits_lt_base (by norm_num) (by simpa using hx))
      (fun x hx => Nat.digits_lt_base (by norm_num) (by simpa using hx)) hdata
    have := List.reverse_injective hmap
    exact Nat.digits.injective 10 this

/-- Splitting `l ++ '.' :: r` is unambiguous when neither `r` contains a dot. -/
theorem dot_sep_inj {l₁ l₂ r₁ r₂ : List Char}
    (h : l₁ ++ '.' :: r₁ = l₂ ++ '.' :: r₂)
    (h₁ : '.' ∉ r₁) (h₂ : '.' ∉ r₂) : l₁ = l₂ ∧ r₁ = r₂ := by
  induction l₁ generalizing l₂ with
  | nil =>
    cases l₂ with
    | nil => simpa using h
    | cons c t =>
      exfalso
      simp only [List.nil_append, List.cons_append, List.cons.injEq] at h
      exact h₁ (h.2 ▸ List.mem_append_right t (by simp))
  | cons c t ih =>
    cases l₂ with
    | nil =>
      exfalso
      simp only [List.nil_append, List.cons_append, List.cons.injEq] at h
      exact h₂ (h.2.symm ▸ List.mem_append_right t (by simp))
    | cons c₂ t₂ =>
      simp only [List.cons_append, List.cons.injEq] at h
      obtain ⟨rfl, h'⟩ := h
      obtain ⟨ht, hr⟩ := ih h'
      exact ⟨by rw [ht], hr⟩



/-! ## Stage manager: stages, snapshot names, `__next_after`, `rotate`

From `class StageManager` of `rsync_backup.py`.  Timestamp files are modelled
as an association list from snapshot name to stored integer seconds; reading a
missing stamp corresponds to the `open` raising in `TimeStamp.read`. -/

namespace StageManager

/-- `StageManager.Stage`: name, interval in seconds, keep count.  `keep` is a
count, modelled as `Nat`. -/
structure Stage where
  name : String
  interval : Int
  keep : Nat
deriving DecidableEq

/-- Helper for `load_stages_from_config`: the running `stage_interval`,
multiplied by `keep` after each stage. -/
def loadStagesGo (stageInterval : Int) : List (String × Nat) → List Stage
  | [] => []
  | (n, k) :: rest => ⟨n, stageInterval, k⟩ :: loadStagesGo (stageInterval * k) rest

/-- `load_stages_from_config`: stage `i` gets interval
`interval * ∏_{k < i} keep_k`; also returns the base interval. -/
def load_stages_from_config (interval : Int) (rawStages : List (String × Nat)) :
    List Stage × Int :=
  (loadStagesGo interval rawStages, interval)

/-- `StageManager.__snapshot_name`: `f'{stage_name}.{stage_num}'`. -/
def snapshotName (stageName : String) (num : Nat) : String :=
  stageName ++ "." ++ natStr num

/-- Exceptions of the embedded Python fragments that are not caught locally. -/
inductive PyErr
  | zeroDivision
deriving DecidableEq

/-- The loop of `__next_after` over `self.__stages[stage_id:]`.  Python's
`int(elapsed / stage.interval)` truncates towards zero (`Int.tdiv`) and raises
`ZeroDivisionError` when the interval is zero. -/
def nextAfterGo (elapsed : Int) : List Stage → Except PyErr (Option String)
  | [] => .ok none
  | stage :: rest =>
    if stage.interval = 0 then .error .zeroDivision
    else
      let num := Int.tdiv elapsed stage.interval
      if 0 ≤ num ∧ num < (stage.keep : Int) then
        .ok (some (snapshotName stage.name num.toNat))
      else nextAfterGo elapsed rest

/-- `StageManager.__next_after`.  `readTs` models `TimeStamp.read`
(`none` = the stamp file is missing and `open` raises, caught by the
`try`/`except` which returns `None`). -/
def next_after (stages : List Stage) (readTs : String → Option Int) (now : Int)
    (stageId : Nat) (num : Nat) : Except PyErr (Option String) :=
  match stages.get? stageId with
  | none => .ok none
  | some stage =>
    match readTs (snapshotName stage.name num) with
    | none => .ok none
    | some ts => nextAfterGo (now - ts) (stages.drop stageId)

/-- The claim's reading of the `__next_after` loop, with `q` computed by
*floor* division as the claim C3 states it. -/
def nextAfterFloorGo (elapsed : Int) : List Stage → Option String
  | [] => none
  | stage :: rest =>
    let q := Int.fdiv elapsed stage.interval
    if 0 ≤ q ∧ q < (stage.keep : Int) then some (snapshotName stage.name q.toNat)
    else nextAfterFloorGo elapsed rest

/-- `__next_after` as claim C3 words it (floor division, total). -/
def nextAfterFloorSpec (stages : List Stage) (readTs : String → Option Int)
    (now : Int) (stageId : Nat) (num : Nat) : Option String :=
  match stages.get? stageId with
  | none => none
  | some stage =>
    match readTs (snapshotName stage.name num) with
    | none => none
    | some ts => nextAfterFloorGo (now - ts) (stages.drop stageId)

/-- `__next_after` as the amended claim words it: the only change forced by
the counterexample is that `q` is the quotient *truncated towards zero*
(Python `int(e / i)`), not the floor. -/
def nextAfterTruncGo (elapsed : Int) : List Stage → Option String
  | [] => none
  | stage :: rest =>
    let q := Int.tdiv elapsed stage.interval
    if 0 ≤ q ∧ q < (stage.keep : Int) then some (snapshotName stage.name q.toNat)
    else nextAfterTruncGo elapsed rest

/-- Amended-claim version of `__next_after` (truncating division, total). -/
def nextAfterTruncSpec (stages : List Stage) (readTs : String → Option Int)
    (now : Int) (stageId : Nat) (num : Nat) : Option String :=
  match stages.get? stageId with
  | none => none
  | some stage =>
    match readTs (snapshotName stage.name num) with
    | none => none
    | some ts => nextAfterTruncGo (now - ts) (stages.drop stageId)

/-- `StageManager.snapshot_names`: all possible snapshot names in ascending
order. -/
def snapshot_names (stages : List Stage) : List String :=
  stages.flatMap (fun s => (List.range s.keep).map (fun i => snapshotName s.name i))

/-! ### On-disk state of the stages directory, and `rotate` -/

/-- The stages directory: which snapshot directories exist (`is_dir`), and the
stamp files (name ↦ stored integer).  Directory listings have no duplicate
names, which theorems track as `dirs.Nodup`. -/
structure StagesDisk where
  dirs : List String
  stamps : List (String × Int)
deriving DecidableEq

/-- `self.__dname`. -/
def dname : String := ".delete"

/-- `TimeStamp.read` on the stamp store. -/
def stampRead (stamps : List (String × Int)) (snapshot : String) : Option Int :=
  match stamps with
  | [] => none
  | (k, v) :: rest => if k = snapshot then some v else stampRead rest snapshot

/-- `TimeStamp.remove`: `FileSystem.remove_file` of the stamp file. -/
def stampRemove (stamps : List (String × Int)) (snapshot : String) :
    List (String × Int) :=
  stamps.filter (fun p => p.1 ≠ snapshot)

/-- `TimeStamp.copy`: if the source stamp file exists, `copy_file` it over the
target stamp (removing the target stamp first). -/
def stampCopy (stamps : List (String × Int)) (src tgt : String) :
    List (String × Int) :=
  match stampRead stamps src with
  | some v => (tgt, v) :: stampRemove stamps tgt
  | none => stamps

/-- `StageManager.__has`: the snapshot directory exists in the listing. -/
def hasDir (d : StagesDisk) (s : String) : Bool := decide (s ∈ d.dirs)

/-- `StageManager.__rm` with `delete_eager = False` (as called from `rotate`):
rmtree a stale `.delete` if present, rename the snapshot directory to
`.delete`, and remove the snapshot's stamp. -/
def rmSnap (d : StagesDisk) (snapshot : String) : StagesDisk :=
  if hasDir d snapshot then
    let dirs1 := if hasDir d dname then d.dirs.erase dname else d.dirs
    { dirs := (dirs1.erase snapshot) ++ [dname],
      stamps := stampRemove d.stamps snapshot }
  else d

/-- `StageManager.__mv`: copy the stamp to the target, rename the directory,
remove the source stamp. -/
def mvSnap (d : StagesDisk) (src tgt : String) : StagesDisk :=
  { dirs := (d.dirs.erase src) ++ [tgt],
    stamps := stampRemove (stampCopy d.stamps src tgt) src }

/-- Body of the inner loop of `StageManager.rotate` for one source index `i`
of stage `stage` (with index `stageId`). -/
def rotateStep (stages : List Stage) (now : Int) (stageId : Nat) (stage : Stage)
    (d : StagesDisk) (i : Nat) : Except PyErr StagesDisk :=
  if hasDir d (snapshotName stage.name i) then
    match next_after stages (stampRead d.stamps) now stageId i with
    | .error e => .error e
    | .ok none => .ok (rmSnap d (snapshotName stage.name i))
    | .ok (some tgtName) =>
      if snapshotName stage.name i ≠ tgtName then
        if ¬ hasDir d tgtName then .ok (mvSnap d (snapshotName stage.name i) tgtName)
        else .ok (rmSnap d (snapshotName stage.name i))
      else .ok d
  else .ok d

/-- `StageManager.rotate`: stages from last to first, indices from
`keep - 1` down to `0`. -/
def rotate (stages : List Stage) (now : Int) (d : StagesDisk) :
    Except PyErr StagesDisk :=
  List.foldlM
    (fun d si =>
      List.foldlM (rotateStep stages now si.1 si.2) d
        ((List.range si.2.keep).reverse))
    d (stages.enum.reverse)

/-- Claim C4's description of removing a snapshot: the directory and its
stamp are gone. -/
def removeSnapSpec (d : StagesDisk) (s : String) : StagesDisk :=
  { dirs := d.dirs.erase s, stamps := stampRemove d.stamps s }

/-- Claim C4's description of the move: rename the directory to the target
name, carrying its timestamp. -/
def moveCarrySpec (d : StagesDisk) (src tgt : String) : StagesDisk :=
  { dirs := (d.dirs.erase src) ++ [tgt],
    stamps := stampRemove (stampCopy d.stamps src tgt) src }

/-- Per-snapshot action exactly as claim C4 words it: remove on `None`,
rename carrying the timestamp when the target name differs and is free,
remove the source when the target name differs but exists, leave untouched
when target equals source. -/
def rotateStepSpec (stages : List Stage) (now : Int) (stageId : Nat)
    (stage : Stage) (d : StagesDisk) (i : Nat) : Except PyErr StagesDisk :=
  if hasDir d (snapshotName stage.name i) then
    match next_after stages (stampRead d.stamps) now stageId i with
    | .error e => .error e
    | .ok none => .ok (removeSnapSpec d (snapshotName stage.name i))
    | .ok (some tgtName) =>
      if tgtName = snapshotName stage.name i then .ok d
      else if ¬ hasDir d tgtName then
        .ok (moveCarrySpec d (snapshotName stage.name i) tgtName)
      else .ok (removeSnapSpec d (snapshotName stage.name i))
  else .ok d

/-- Claim C4's traversal: stages from last to first, indices from `keep - 1`
down to `0`. -/
def rotateSpec (stages : List Stage) (now : Int) (d : StagesDisk) :
    Except PyErr StagesDisk :=
  List.foldlM
    (fun d si =>
      List.foldlM (rotateStepSpec stages now si.1 si.2) d
        ((List.range si.2.keep).reverse))
    d (stages.enum.reverse)

/-- Observable content of the stages directory at snapshot names: which
snapshot directories exist (the transient `.delete` scratch directory is not a
snapshot) and the stamp of each name. -/
def snapView (d : StagesDisk) : (String → Bool) × (String → Option Int) :=
  (fun n => if n = dname then false else hasDir d n,
   fun n => stampRead d.stamps n)


/-! ### Facts about snapshot names -/

theorem snapshotName_data (name : String) (i : Nat) :
    (snapshotName name i).data = name.data ++ '.' :: (natStr i).data := by
  simp [snapshotName, String.data_append]

theorem snapshotName_inj {n₁ n₂ : String} {j₁ j₂ : Nat}
    (h : snapshotName n₁ j₁ = snapshotName n₂ j₂) : n₁ = n₂ ∧ j₁ = j₂ := by
  have hd := congrArg String.data h
  rw [snapshotName_data, snapshotName_data] at hd
  have hsep := dot_sep_inj hd
    (fun hmem => natStr_digits_only j₁ '.' hmem rfl)
    (fun hmem => natStr_digits_only j₂ '.' hmem rfl)
  exact ⟨String.ext hsep.1, natStr_injective (String.ext hsep.2)⟩

/-- A snapshot name is never the `.delete` scratch name. -/
theorem snapshotName_ne_dname (name : String) (i : Nat) :
    snapshotName name i ≠ dname := by
  intro h
  have hd := congrArg String.data h
  rw [snapshotName_data] at hd
  have hdel : (dname).data = [] ++ '.' :: "delete".data := by decide
  rw [hdel] at hd
  have hsep := dot_sep_inj hd
    (fun hmem => natStr_digits_only i '.' hmem rfl)
    (by decide)
  have : ('d' : Char) ∈ (natStr i).data := by
    rw [hsep.2]; decide
  have := natStr_isDigit i 'd' this
  simp at this

theorem nextAfterGo_trunc (elapsed : Int) (l : List Stage)
    (hnz : ∀ st ∈ l, st.interval ≠ 0) :
    nextAfterGo elapsed l = .ok (nextAfterTruncGo elapsed l) := by
  induction l with
  | nil => rfl
  | cons s rest ih =>
    unfold nextAfterGo nextAfterTruncGo
    rw [if_neg (hnz s (by simp))]
    by_cases h : 0 ≤ Int.tdiv elapsed s.interval ∧
        Int.tdiv elapsed s.interval < (s.keep : Int)
    · simp [h]
    · simp [h]
      exact ih (fun st hst => hnz st (by simp [hst]))


theorem snapshot_names_length (stages : List Stage) :
    (snapshot_names stages).length = (stages.map Stage.keep).sum := by
  induction stages with
  | nil => rfl
  | cons s rest ih =>
    simp only [snapshot_names, List.flatMap_cons, List.length_append,
      List.length_map, List.length_range, List.map_cons, List.sum_cons]
    rw [← ih]
    rfl

theorem snapshot_names_getElem (stages : List Stage) (i j : Nat) (s : Stage)
    (hi : stages.get? i = some s) (hj : j < s.keep) :
    (snapshot_names stages)[((stages.take i).map Stage.keep).sum + j]?
      = some (snapshotName s.name j) := by
  induction stages generalizing i with
  | nil => simp at hi
  | cons st rest ih =>
    cases i with
    | zero =>
      simp only [List.get?_cons_zero, Option.some.injEq] at hi
      subst hi
      simp only [List.take_zero, List.map_nil, List.sum_nil, Nat.zero_add,
        snapshot_names, List.flatMap_cons]
      rw [List.getElem?_append, if_pos (by simpa using hj)]
      simp [List.getElem?_range hj]
    | succ i2 =>
      simp only [List.get?_cons_succ] at hi
      simp only [List.take_succ_cons, List.map_cons, List.sum_cons,
        snapshot_names, List.flatMap_cons]
      rw [List.getElem?_append_right (by simp [Nat.le_add_right, Nat.add_assoc])]
      have := ih i2 hi
      simp only [snapshot_names] at this
      simpa [Nat.add_assoc] using this

theorem snapshot_names_nodup (stages : List Stage)
    (hnames : (stages.map Stage.name).Nodup) : (snapshot_names stages).Nodup := by
  induction stages with
  | nil => simp [snapshot_names]
  | cons s rest ih =>
    simp only [List.map_cons, List.nodup_cons] at hnames
    simp only [snapshot_names, List.flatMap_cons]
    rw [List.nodup_append]
    refine ⟨?_, ?_, ?_⟩
    · refine List.Nodup.map ?_ (List.nodup_range _)
      intro a b hab
      exact (snapshotName_inj hab).2
    · exact ih hnames.2
    · intro x hx hx2
      simp only [List.mem_map, List.mem_range] at hx
      obtain ⟨a, _, rfl⟩ := hx
      rw [List.mem_flatMap] at hx2
      obtain ⟨t, ht, hxt⟩ := hx2
      simp only [List.mem_map, List.mem_range] at hxt
      obtain ⟨b, _, hb⟩ := hxt
      have := (snapshotName_inj hb.symm).1
      exact hnames.1 (this ▸ List.mem_map_of_mem Stage.name ht)


/-! ### Claims C3, C7, C10 -/

/-- Claim C3, counterexample: the claim computes `q` by floor division, but
Python's `int(elapsed / interval)` truncates towards zero.  With a stored
timestamp 1 second in the future (`now = 0`, stamp `1`), `elapsed = -1`;
the code computes `int(-1/2) = 0` and returns `"s.0"`, while the claim's
floor `⌊-1/2⌋ = -1` fails `0 ≤ q` and yields `None`. -/
theorem next_after_floor_counterexample :
    next_after [⟨"s", 2, 1⟩] (fun n => if n = "s.0" then some 1 else none) 0 0 0
      = .ok (some "s.0") ∧
    nextAfterFloorSpec [⟨"s", 2, 1⟩]
      (fun n => if n = "s.0" then some 1 else none) 0 0 0 = none := by
  exact ⟨rfl, rfl⟩

/-- Claim C3 (amended): `__next_after` returns `None` when the stamp read
raises; otherwise it returns the name of the first stage `i` in
`stage_id .. last_stage` whose index `q`, the quotient of the elapsed time by
`interval_i` *truncated towards zero*, satisfies `0 ≤ q < keep_i`, and `None`
when no such stage exists — provided no inspected stage interval is zero
(else `ZeroDivisionError`, claim C10). -/
theorem next_after_eq_truncSpec (stages : List Stage)
    (readTs : String → Option Int) (now : Int) (stageId num : Nat)
    (hnz : ∀ st ∈ stages.drop stageId, st.interval ≠ 0) :
    next_after stages readTs now stageId num
      = .ok (nextAfterTruncSpec stages readTs now stageId num) := by
  simp only [next_after, nextAfterTruncSpec, List.get?_eq_getElem?]
  cases hget : stages[stageId]? with
  | none => simp [hget]
  | some stage =>
    cases hread : readTs (snapshotName stage.name num) with
    | none => simp [hget, hread]
    | some ts =>
      simp only [hget, hread]
      exact nextAfterGo_trunc _ _ hnz

theorem next_after_eq_truncSpec_witness :
    (∀ st ∈ ([⟨"h", 3600, 24⟩] : List Stage).drop 0, st.interval ≠ 0) ∧
    next_after [⟨"h", 3600, 24⟩] (fun _ => some 0) 7200 0 0
      = .ok (nextAfterTruncSpec [⟨"h", 3600, 24⟩] (fun _ => some 0) 7200 0 0) :=
  ⟨by decide, next_after_eq_truncSpec _ _ _ _ _ (by decide)⟩

/-- Claim C10: the division `elapsed / stage.interval` in `__next_after` is
unguarded.  With base interval 0 (first conjunct pair) or a keep-0 stage
before the last (which zeroes the next stage's computed interval, second
pair), and a readable stamp, `__next_after` raises `ZeroDivisionError`
instead of returning a name or `None`. -/
theorem next_after_zero_division :
    (load_stages_from_config 0 [("h", 5)]).1 = [⟨"h", 0, 5⟩] ∧
    next_after (load_stages_from_config 0 [("h", 5)]).1
      (fun _ => some 0) 100 0 0 = .error .zeroDivision ∧
    (load_stages_from_config 3600 [("h", 0), ("d", 7)]).1
      = [⟨"h", 3600, 0⟩, ⟨"d", 0, 7⟩] ∧
    next_after (load_stages_from_config 3600 [("h", 0), ("d", 7)]).1
      (fun _ => some 0) 100 0 0 = .error .zeroDivision :=
  ⟨rfl, rfl, rfl, rfl⟩

/-- Claim C7, counterexample: with two stages that share a name (a
syntactically valid configuration), `snapshot_names` returns `Σ keep` names
but they are not pairwise distinct. -/
theorem snapshot_names_dup_counterexample :
    (snapshot_names [⟨"a", 1, 1⟩, ⟨"a", 1, 1⟩]).length = 2 ∧
    ¬ (snapshot_names [⟨"a", 1, 1⟩, ⟨"a", 1, 1⟩]).Nodup := by
  exact ⟨rfl, by decide⟩

/-- Claim C7 (amended): `snapshot_names` returns exactly `Σ keep_i` names, in
declared stage order with ascending indices within each stage (the name at
flat position `Σ_{k<i} keep_k + j` is `name_i ++ "." ++ str j`), and — when
the stage names are pairwise distinct — the returned names are pairwise
distinct. -/
theorem snapshot_names_spec (stages : List Stage)
    (hnames : (stages.map Stage.name).Nodup) :
    (snapshot_names stages).length = (stages.map Stage.keep).sum ∧
    (∀ i j s, stages.get? i = some s → j < s.keep →
      (snapshot_names stages)[((stages.take i).map Stage.keep).sum + j]?
        = some (snapshotName s.name j)) ∧
    (snapshot_names stages).Nodup :=
  ⟨snapshot_names_length stages,
   fun i j s hi hj => snapshot_names_getElem stages i j s hi hj,
   snapshot_names_nodup stages hnames⟩

theorem snapshot_names_spec_witness :
    (([⟨"hourly", 3600, 2⟩, ⟨"daily", 86400, 3⟩] : List Stage).map
        Stage.name).Nodup ∧
    (snapshot_names [⟨"hourly", 3600, 2⟩, ⟨"daily", 86400, 3⟩]).Nodup :=
  ⟨by decide,
   (snapshot_names_spec [⟨"hourly", 3600, 2⟩, ⟨"daily", 86400, 3⟩]
      (by decide)).2.2⟩


/-! ### Claim C4: `rotate` matches its specification up to the `.delete`
scratch directory -/

theorem stampRead_stampRemove (l : List (String × Int)) (s n : String) :
    stampRead (stampRemove l s) n = if n = s then none else stampRead l n := by
  induction l with
  | nil => simp [stampRead, stampRemove]
  | cons p t ih =>
    obtain ⟨k, v⟩ := p
    by_cases hks : k = s
    · rw [stampRemove, List.filter_cons_of_neg (by simp [hks])]
      rw [stampRemove] at ih
      rw [ih]
      by_cases hns : n = s
      · simp [hns]
      · simp only [if_neg hns]
        rw [stampRead, if_neg (by rw [hks]; exact fun hsn => hns hsn.symm)]
    · rw [stampRemove, List.filter_cons_of_pos (by simp [hks])]
      rw [stampRead]
      rw [stampRemove] at ih
      by_cases hkn : k = n
      · have hns : n ≠ s := fun hns => hks (hkn.trans hns)
        simp [hkn, stampRead, hns]
      · rw [if_neg hkn, ih]
        by_cases hns : n = s
        · simp [hns]
        · simp only [if_neg hns]
          rw [stampRead, if_neg hkn]

theorem stampRead_stampCopy (l : List (String × Int)) (src tgt n : String) :
    stampRead (stampCopy l src tgt) n =
      if n = tgt then
        (match stampRead l src with
          | some v => some v
          | none => stampRead l tgt)
      else stampRead l n := by
  unfold stampCopy
  cases hsrc : stampRead l src with
  | none =>
    by_cases h : n = tgt <;> simp [h, hsrc]
  | some v =>
    by_cases h : n = tgt
    · subst h
      simp [hsrc, stampRead]
    · simp only [if_neg h, stampRead,
        if_neg (fun htn : tgt = n => h htn.symm)]
      have := stampRead_stampRemove l tgt n
      rw [if_neg h] at this
      exact this

/-- Invariant tying the implementation state to the claim-side state:
directory listings are duplicate-free and the two states agree on every
snapshot name. -/
def GoodPair (d₁ d₂ : StagesDisk) : Prop :=
  d₁.dirs.Nodup ∧ d₂.dirs.Nodup ∧ snapView d₁ = snapView d₂

/-- Relating two `Except` outcomes: same error, or `R`-related states. -/
def ExceptRel (R : StagesDisk → StagesDisk → Prop) :
    Except PyErr StagesDisk → Except PyErr StagesDisk → Prop
  | .error e, .error f => e = f
  | .ok d₁, .ok d₂ => R d₁ d₂
  | _, _ => False

theorem GoodPair.hasDir_eq {d₁ d₂ : StagesDisk} (h : GoodPair d₁ d₂)
    {n : String} (hn : n ≠ dname) : hasDir d₁ n = hasDir d₂ n := by
  have := congrFun (congrArg Prod.fst h.2.2) n
  simpa [snapView, hn] using this

theorem GoodPair.stampRead_eq {d₁ d₂ : StagesDisk} (h : GoodPair d₁ d₂) :
    stampRead d₁.stamps = stampRead d₂.stamps :=
  congrArg Prod.snd h.2.2

theorem GoodPair.rm {d₁ d₂ : StagesDisk} (h : GoodPair d₁ d₂) {s : String}
    (hhas : hasDir d₁ s = true) :
    GoodPair (rmSnap d₁ s) (removeSnapSpec d₂ s) := by
  obtain ⟨hn₁, hn₂, hv⟩ := h
  unfold rmSnap removeSnapSpec
  rw [if_pos hhas]
  set dirs1 := if hasDir d₁ dname then d₁.dirs.erase dname else d₁.dirs with hd1
  have hnodup1 : dirs1.Nodup := by
    rw [hd1]; split
    · exact hn₁.erase dname
    · exact hn₁
  have hdn1 : dname ∉ dirs1 := by
    rw [hd1]; split
    · exact hn₁.not_mem_erase
    · rename_i hc
      simp [hasDir] at hc
      exact hc
  have hmem1 : ∀ n, n ≠ dname → (n ∈ dirs1 ↔ n ∈ d₁.dirs) := by
    intro n hn
    rw [hd1]; split
    · exact List.mem_erase_of_ne hn
    · exact Iff.rfl
  refine ⟨?_, ?_, ?_⟩
  · rw [List.nodup_append]
    refine ⟨hnodup1.erase s, List.nodup_singleton _, ?_⟩
    intro x hx hx2
    simp only [List.mem_singleton] at hx2
    subst hx2
    exact hdn1 (List.mem_of_mem_erase hx)
  · exact hn₂.erase s
  · apply Prod.ext
    · funext n
      by_cases hn : n = dname
      · simp [snapView, hn]
      · simp only [snapView, if_neg hn, hasDir]
        apply decide_eq_decide.mpr
        have hview := congrFun (congrArg Prod.fst hv) n
        simp only [snapView, if_neg hn, hasDir] at hview
        have hiff := decide_eq_decide.mp hview
        constructor
        · intro hmem
          rcases List.mem_append.mp hmem with hmem | hmem
          · by_cases hns : n = s
            · exact absurd hmem (hns ▸ hnodup1.not_mem_erase)
            · have hd₁ : n ∈ d₁.dirs :=
                (hmem1 n hn).mp (List.mem_of_mem_erase hmem)
              exact (List.mem_erase_of_ne hns).mpr (hiff.mp hd₁)
          · simp only [List.mem_singleton] at hmem
            exact absurd hmem hn
        · intro hmem
          have hns : n ≠ s := by
            intro hns
            exact absurd hmem (by rw [hns]; exact hn₂.not_mem_erase)
          have hd₂ : n ∈ d₂.dirs := List.mem_of_mem_erase hmem
          exact List.mem_append.mpr
            (Or.inl ((List.mem_erase_of_ne hns).mpr
              ((hmem1 n hn).mpr (hiff.mpr hd₂))))
    · funext n
      have hread := congrArg Prod.snd hv
      simp only [snapView] at hread ⊢
      rw [stampRead_stampRemove, stampRead_stampRemove]
      by_cases hns : n = s
      · simp [hns]
      · simp only [if_neg hns]
        exact congrFun hread n


theorem GoodPair.mv {d₁ d₂ : StagesDisk} (h : GoodPair d₁ d₂)
    {src tgt : String} (htgt : tgt ≠ dname)
    (hfree : hasDir d₁ tgt = false) :
    GoodPair (mvSnap d₁ src tgt) (moveCarrySpec d₂ src tgt) := by
  obtain ⟨hn₁, hn₂, hv⟩ := h
  have hfree₁ : tgt ∉ d₁.dirs := by
    simpa [hasDir] using hfree
  have hviewt := congrFun (congrArg Prod.fst hv) tgt
  simp only [snapView, if_neg htgt, hasDir] at hviewt
  have hfree₂ : tgt ∉ d₂.dirs := fun hmem =>
    hfree₁ ((decide_eq_decide.mp hviewt).mpr hmem)
  unfold mvSnap moveCarrySpec
  refine ⟨?_, ?_, ?_⟩
  · rw [List.nodup_append]
    exact ⟨hn₁.erase src, List.nodup_singleton _,
      fun x hx hx2 => by
        simp only [List.mem_singleton] at hx2
        exact absurd (List.mem_of_mem_erase (hx2 ▸ hx)) hfree₁⟩
  · rw [List.nodup_append]
    exact ⟨hn₂.erase src, List.nodup_singleton _,
      fun x hx hx2 => by
        simp only [List.mem_singleton] at hx2
        exact absurd (List.mem_of_mem_erase (hx2 ▸ hx)) hfree₂⟩
  · apply Prod.ext
    · funext n
      by_cases hn : n = dname
      · simp [snapView, hn]
      · simp only [snapView, if_neg hn, hasDir]
        apply decide_eq_decide.mpr
        have hview := congrFun (congrArg Prod.fst hv) n
        simp only [snapView, if_neg hn, hasDir] at hview
        have hiff := decide_eq_decide.mp hview
        by_cases hnt : n = tgt
        · subst hnt
          simp [List.mem_append]
        · constructor
          · intro hmem
            rcases List.mem_append.mp hmem with hmem | hmem
            · have hns : n ≠ src := by
                intro hns
                exact absurd hmem (by rw [hns]; exact hn₁.not_mem_erase)
              exact List.mem_append.mpr (Or.inl
                ((List.mem_erase_of_ne hns).mpr
                  (hiff.mp (List.mem_of_mem_erase hmem))))
            · simp only [List.mem_singleton] at hmem
              exact absurd hmem hnt
          · intro hmem
            rcases List.mem_append.mp hmem with hmem | hmem
            · have hns : n ≠ src := by
                intro hns
                exact absurd hmem (by rw [hns]; exact hn₂.not_mem_erase)
              exact List.mem_append.mpr (Or.inl
                ((List.mem_erase_of_ne hns).mpr
                  (hiff.mpr (List.mem_of_mem_erase hmem))))
            · simp only [List.mem_singleton] at hmem
              exact absurd hmem hnt
    · funext n
      have hread := congrArg Prod.snd hv
      simp only [snapView] at hread ⊢
      rw [stampRead_stampRemove, stampRead_stampRemove,
        stampRead_stampCopy, stampRead_stampCopy]
      rw [congrFun hread src, congrFun hread tgt, congrFun hread n]

theorem nextAfterGo_shape (elapsed : Int) (l : List Stage) (s : String)
    (h : nextAfterGo elapsed l = .ok (some s)) :
    ∃ name i, s = snapshotName name i := by
  induction l with
  | nil => simp [nextAfterGo] at h
  | cons st rest ih =>
    unfold nextAfterGo at h
    by_cases hz : st.interval = 0
    · simp [hz] at h
    · rw [if_neg hz] at h
      by_cases hc : 0 ≤ Int.tdiv elapsed st.interval ∧
          Int.tdiv elapsed st.interval < (st.keep : Int)
      · rw [if_pos hc] at h
        simp only [Except.ok.injEq, Option.some.injEq] at h
        exact ⟨st.name, _, h.symm⟩
      · rw [if_neg hc] at h
        exact ih h

/-- Whatever `__next_after` returns is a snapshot name, hence not the
`.delete` scratch name. -/
theorem next_after_not_dname (stages : List Stage) (readTs : String → Option Int)
    (now : Int) (stageId num : Nat) (s : String)
    (h : next_after stages readTs now stageId num = .ok (some s)) :
    s ≠ dname := by
  unfold next_after at h
  cases hget : stages.get? stageId with
  | none => rw [hget] at h; simp at h
  | some stage =>
    rw [hget] at h
    dsimp only at h
    cases hread : readTs (snapshotName stage.name num) with
    | none => rw [hread] at h; simp at h
    | some ts =>
      rw [hread] at h
      obtain ⟨name, i, rfl⟩ := nextAfterGo_shape _ _ _ h
      exact snapshotName_ne_dname name i

/-- One `rotate` iteration preserves the invariant against the claim-side
step. -/
theorem rotateStep_rel (stages : List Stage) (now : Int) (stageId : Nat)
    (stage : Stage) (i : Nat) {d₁ d₂ : StagesDisk} (h : GoodPair d₁ d₂) :
    ExceptRel GoodPair (rotateStep stages now stageId stage d₁ i)
      (rotateStepSpec stages now stageId stage d₂ i) := by
  have hsrcd := snapshotName_ne_dname stage.name i
  have hhas := h.hasDir_eq hsrcd
  have hread := h.stampRead_eq
  unfold rotateStep rotateStepSpec
  rw [hhas, hread]
  cases hB : hasDir d₂ (snapshotName stage.name i) with
  | false => simpa [hB, ExceptRel] using h
  | true =>
    simp only [hB, if_true]
    have hhas₁ : hasDir d₁ (snapshotName stage.name i) = true := by
      rw [hhas]; exact hB
    cases hna : next_after stages (stampRead d₂.stamps) now stageId i with
    | error e => simp [ExceptRel]
    | ok o =>
      cases o with
      | none => simpa [ExceptRel] using h.rm hhas₁
      | some tgtName =>
        have htgtd : tgtName ≠ dname :=
          next_after_not_dname stages (stampRead d₂.stamps) now stageId i
            tgtName hna
        have hhas2 := h.hasDir_eq htgtd
        by_cases heq : snapshotName stage.name i = tgtName
        · simp only [heq, ne_eq, not_true_eq_false, if_false, if_pos rfl]
          exact h
        · simp only [ne_eq, heq, not_false_eq_true, if_true,
            if_neg (fun hse : tgtName = snapshotName stage.name i =>
              heq hse.symm)]
          rw [hhas2]
          cases hT : hasDir d₂ tgtName with
          | false =>
            have hfree : hasDir d₁ tgtName = false := by rw [hhas2]; exact hT
            simpa [hT, ExceptRel] using h.mv htgtd hfree
          | true =>
            simpa [hT, ExceptRel] using h.rm hhas₁


/-- Folding related step functions over the same iteration list preserves the
invariant (or produces the same error). -/
theorem foldlM_rel {α : Type} {step₁ step₂ : StagesDisk → α → Except PyErr StagesDisk}
    (hstep : ∀ d₁ d₂ a, GoodPair d₁ d₂ →
      ExceptRel GoodPair (step₁ d₁ a) (step₂ d₂ a)) :
    ∀ (l : List α) (d₁ d₂ : StagesDisk), GoodPair d₁ d₂ →
      ExceptRel GoodPair (List.foldlM step₁ d₁ l) (List.foldlM step₂ d₂ l) := by
  intro l
  induction l with
  | nil => intro d₁ d₂ h; exact h
  | cons a t ih =>
    intro d₁ d₂ h
    simp only [List.foldlM_cons]
    have hrel := hstep d₁ d₂ a h
    cases h₁ : step₁ d₁ a with
    | error e =>
      cases h₂ : step₂ d₂ a with
      | error f =>
        cases e; cases f
        exact rfl
      | ok e₂ =>
        rw [h₁, h₂] at hrel
        exact absurd hrel (by simp [ExceptRel])
    | ok e₁ =>
      cases h₂ : step₂ d₂ a with
      | error f =>
        rw [h₁, h₂] at hrel
        exact absurd hrel (by simp [ExceptRel])
      | ok e₂ =>
        rw [h₁, h₂] at hrel
        simp only [ExceptRel] at hrel
        simpa using ih e₁ e₂ hrel

theorem ExceptRel_to_map {x y : Except PyErr StagesDisk}
    (h : ExceptRel GoodPair x y) :
    Except.map snapView x = Except.map snapView y := by
  cases x with
  | error e =>
    cases y with
    | error f => cases e; cases f; rfl
    | ok d => exact absurd h (by simp [ExceptRel])
  | ok d₁ =>
    cases y with
    | error f => exact absurd h (by simp [ExceptRel])
    | ok d₂ =>
      simp only [ExceptRel, GoodPair] at h
      simp [Except.map, h.2.2]

/-- Claim C4: `rotate` visits stages from last to first and, within each
stage, indices from `keep-1` down to `0`; for each existing source snapshot
it removes it when `__next_after` returns `None`, renames it to the target
name carrying its timestamp when the target differs and is free, removes the
source when the target differs but exists, and leaves it untouched when
target equals source — where "snapshot state" is observed at all snapshot
names (directory existence and stamp value); the implementation additionally
parks removed directories under the transient `.delete` scratch name. -/
theorem rotate_matches_rotateSpec (stages : List Stage) (now : Int)
    (d : StagesDisk) (hd : d.dirs.Nodup) :
    Except.map snapView (rotate stages now d)
      = Except.map snapView (rotateSpec stages now d) := by
  have hstep : ∀ d₁ d₂ (si : Nat × Stage), GoodPair d₁ d₂ →
      ExceptRel GoodPair
        (List.foldlM (rotateStep stages now si.1 si.2) d₁
          ((List.range si.2.keep).reverse))
        (List.foldlM (rotateStepSpec stages now si.1 si.2) d₂
          ((List.range si.2.keep).reverse)) := by
    intro d₁ d₂ si h
    exact foldlM_rel (fun e₁ e₂ i hi => rotateStep_rel stages now si.1 si.2 i hi)
      _ d₁ d₂ h
  exact ExceptRel_to_map (foldlM_rel hstep (stages.enum.reverse) d d ⟨hd, hd, rfl⟩)

theorem rotate_matches_rotateSpec_witness :
    (["hourly.0", "hourly.1"] : List String).Nodup ∧
    Except.map snapView
        (rotate [⟨"hourly", 3600, 2⟩] 7200
          ⟨["hourly.0", "hourly.1"], [("hourly.0", 3600), ("hourly.1", 0)]⟩)
      = Except.map snapView
        (rotateSpec [⟨"hourly", 3600, 2⟩] 7200
          ⟨["hourly.0", "hourly.1"], [("hourly.0", 3600), ("hourly.1", 0)]⟩) :=
  ⟨by decide,
   rotate_matches_rotateSpec [⟨"hourly", 3600, 2⟩] 7200
     ⟨["hourly.0", "hourly.1"], [("hourly.0", 3600), ("hourly.1", 0)]⟩
     (by decide)⟩

end StageManager

/-! ## Task system: `__try_add`, `add`, `add_or_run`

From `class TaskSystem`.  Queues are modelled as `Nat → List Nat` (queue
index ↦ list of task ids; only indices `< W` are used, every access goes
through `% W` as in the source).  The mutable shutdown flag is modelled as the
sequence of values it has at each read: `shut 0` is the read in
`add`/`add_or_run` (`not self.__shutdown`), `shut (k+1)` the read at the top
of probe `k` of `__try_add`.  `locked k` tells whether probe `k`'s
non-blocking `cv.acquire` succeeds.  Constructor sanitisation
(`max(1, max_workers)`, `max(0, max_retries)`, `max(1, queue_limit)`) is
reflected by taking the already-sanitised values as `Nat` parameters with
`0 < W`. -/

namespace TaskSystem

/-- Replace queue `i`. -/
def setQ (qs : Nat → List Nat) (i : Nat) (l : List Nat) : Nat → List Nat :=
  fun j => if j = i then l else qs j

/-- The probe loop of `TaskSystem.__try_add`: `k` probes already made,
`remaining` probes to go; probe `k` targets queue `(idx + k) % W`. -/
def tryAddGo (W limit : Nat) (shut locked : Nat → Bool) (honorLimit : Bool)
    (t : Nat) (qs : Nat → List Nat) (idx : Nat) :
    Nat → Nat → Option (Nat × (Nat → List Nat))
  | _, 0 => none
  | k, r + 1 =>
    if shut k then none
    else if locked k then
      if ¬ honorLimit ∨ (qs ((idx + k) % W)).length < limit then
        some ((idx + k) % W, setQ qs ((idx + k) % W) (qs ((idx + k) % W) ++ [t]))
      else tryAddGo W limit shut locked honorLimit t qs idx (k + 1) r
    else tryAddGo W limit shut locked honorLimit t qs idx (k + 1) r

/-- `TaskSystem.__try_add`: probe queues `idx, idx+1, …,
idx + W·(1+retries) − 1` (mod `W`). -/
def try_add (W retries limit : Nat) (shut locked : Nat → Bool)
    (honorLimit : Bool) (qs : Nat → List Nat) (idx : Nat) (t : Nat) :
    Option (Nat × (Nat → List Nat)) :=
  tryAddGo W limit shut locked honorLimit t qs idx 0 (W * (1 + retries))

/-- `TaskSystem.add`: read the shutdown flag; if clear, `__try_add`; if that
fails, block on the originally selected queue `idx % W` and force-append. -/
def add (W retries limit : Nat) (shut locked : Nat → Bool)
    (qs : Nat → List Nat) (idx : Nat) (t : Nat) : Nat → List Nat :=
  if shut 0 then qs
  else
    match try_add W retries limit (fun k => shut (k + 1)) locked false qs idx t with
    | some (_, qs2) => qs2
    | none => setQ qs (idx % W) (qs (idx % W) ++ [t])

/-- Possible outcomes of `TaskSystem.add_or_run`. -/
inductive AddOrRunOutcome
  | enqueued (queue : Nat) (qs : Nat → List Nat)
  | ranSync (qs : Nat → List Nat)
  | dropped (qs : Nat → List Nat)

/-- `TaskSystem.add_or_run`: conditional enqueue honouring the queue limit;
on failure of `__try_add` runs the task synchronously — except that a set
shutdown flag at the initial read skips both. -/
def add_or_run (W retries limit : Nat) (shut locked : Nat → Bool)
    (qs : Nat → List Nat) (idx : Nat) (t : Nat) : AddOrRunOutcome :=
  if shut 0 then .dropped qs
  else
    match try_add W retries limit (fun k => shut (k + 1)) locked true qs idx t with
    | some (q, qs2) => .enqueued q qs2
    | none => .ranSync qs

theorem tryAddGo_some (W limit : Nat) (shut locked : Nat → Bool)
    (honorLimit : Bool) (t : Nat) (qs : Nat → List Nat) (idx : Nat)
    (hW : 0 < W) :
    ∀ r k j qs2, tryAddGo W limit shut locked honorLimit t qs idx k r
        = some (j, qs2) →
      j < W ∧ qs2 = setQ qs j (qs j ++ [t]) := by
  intro r
  induction r with
  | zero => intro k j qs2 h; simp [tryAddGo] at h
  | succ r ih =>
    intro k j qs2 h
    unfold tryAddGo at h
    by_cases hs : shut k = true
    · simp [hs] at h
    · rw [Bool.not_eq_true] at hs
      rw [hs] at h
      simp only [Bool.false_eq_true, if_false] at h
      by_cases hl : locked k = true
      · rw [hl] at h
        simp only [if_true] at h
        by_cases hc : ¬ honorLimit = true ∨ (qs ((idx + k) % W)).length < limit
        · rw [if_pos hc] at h
          simp only [Option.some.injEq, Prod.mk.injEq] at h
          refine ⟨h.1 ▸ Nat.mod_lt _ hW, ?_⟩
          rw [← h.1, ← h.2]
        · rw [if_neg hc] at h
          exact ih (k + 1) j qs2 h
      · rw [Bool.not_eq_true] at hl
        rw [hl] at h
        simp only [Bool.false_eq_true, if_false] at h
        exact ih (k + 1) j qs2 h

theorem tryAddGo_none_all_locked_false (W limit : Nat) (shut locked : Nat → Bool)
    (t : Nat) (qs : Nat → List Nat) (idx : Nat)
    (hshut : ∀ k, shut k = false) :
    ∀ r k, tryAddGo W limit shut locked false t qs idx k r = none →
      ∀ i < r, locked (k + i) = false := by
  intro r
  induction r with
  | zero => intro k _ i hi; omega
  | succ r ih =>
    intro k h i hi
    unfold tryAddGo at h
    rw [hshut k] at h
    simp only [Bool.false_eq_true, if_false] at h
    by_cases hl : locked k = true
    · rw [hl] at h
      simp at h
    · rw [Bool.not_eq_true] at hl
      rw [hl] at h
      simp only [Bool.false_eq_true, if_false] at h
      cases i with
      | zero => simpa using hl
      | succ i2 =>
        have := ih (k + 1) h i2 (by omega)
        simpa [Nat.add_assoc, Nat.add_comm 1 i2] using this

theorem tryAddGo_first_locked (W limit : Nat) (shut locked : Nat → Bool)
    (t : Nat) (qs : Nat → List Nat) (idx : Nat)
    (hshut : ∀ k, shut k = false) :
    ∀ r k m, m < r → locked (k + m) = true →
      (∀ i < m, locked (k + i) = false) →
      tryAddGo W limit shut locked false t qs idx k r
        = some ((idx + (k + m)) % W,
            setQ qs ((idx + (k + m)) % W) (qs ((idx + (k + m)) % W) ++ [t])) := by
  intro r
  induction r with
  | zero => intro k m hm; omega
  | succ r ih =>
    intro k m hm hlock hmin
    unfold tryAddGo
    rw [hshut k]
    simp only [Bool.false_eq_true, if_false]
    cases m with
    | zero =>
      simp only [Nat.add_zero] at hlock
      rw [hlock]
      simp
    | succ m2 =>
      have h0 : locked k = false := by simpa using hmin 0 (Nat.succ_pos m2)
      rw [h0]
      simp only [Bool.false_eq_true, if_false]
      have := ih (k + 1) m2 (by omega)
        (by rw [show k + 1 + m2 = k + (m2 + 1) by omega]; exact hlock)
        (fun i hi => by
          rw [show k + 1 + i = k + (i + 1) by omega]
          exact hmin (i + 1) (by omega))
      rw [show k + 1 + m2 = k + (m2 + 1) by omega] at this
      exact this

/-- Claim C8: when the shutdown flag is clear at the initial read, `add`
appends the task to exactly one worker queue — the queue of the first probe
whose try-lock succeeds, or, when every one of the `W·(1+max_retries)` probes
fails, the originally selected queue `idx % W` (after blocking); the task is
never silently dropped. -/
theorem add_enqueues_exactly_one (W retries limit : Nat)
    (shut locked : Nat → Bool) (qs : Nat → List Nat) (idx t : Nat)
    (hW : 0 < W) (h0 : shut 0 = false) :
    (∃ j, j < W ∧
      add W retries limit shut locked qs idx t = setQ qs j (qs j ++ [t])) ∧
    ((∀ k, shut k = false) →
      ((∀ k < W * (1 + retries), locked k = false) →
        add W retries limit shut locked qs idx t
          = setQ qs (idx % W) (qs (idx % W) ++ [t])) ∧
      (∀ m, m < W * (1 + retries) → locked m = true →
        (∀ i < m, locked i = false) →
        add W retries limit shut locked qs idx t
          = setQ qs ((idx + m) % W) (qs ((idx + m) % W) ++ [t]))) := by
  constructor
  · unfold add
    rw [h0]
    simp only [Bool.false_eq_true, if_false]
    cases htry : try_add W retries limit (fun k => shut (k + 1)) locked false
        qs idx t with
    | none => exact ⟨idx % W, Nat.mod_lt _ hW, rfl⟩
    | some p =>
      obtain ⟨j, qs2⟩ := p
      have := tryAddGo_some W limit (fun k => shut (k + 1)) locked false t qs
        idx hW (W * (1 + retries)) 0 j qs2 htry
      exact ⟨j, this.1, this.2⟩
  · intro hshut
    constructor
    · intro hlock
      unfold add
      rw [h0]
      simp only [Bool.false_eq_true, if_false]
      cases htry : try_add W retries limit (fun k => shut (k + 1)) locked false
          qs idx t with
      | none => rfl
      | some p =>
        obtain ⟨j, qs2⟩ := p
        exfalso
        -- a successful probe contradicts `hlock`
        unfold try_add at htry
        have : ∀ r k, (∀ i < r, locked (k + i) = false) →
            tryAddGo W limit (fun k => shut (k + 1)) locked false t qs idx k r
              = none := by
          intro r
          induction r with
          | zero => intro k _; rfl
          | succ r ih =>
            intro k hk
            unfold tryAddGo
            rw [hshut (k + 1)]
            simp only [Bool.false_eq_true, if_false]
            have h0k : locked k = false := by simpa using hk 0 (Nat.succ_pos r)
            rw [h0k]
            simp only [Bool.false_eq_true, if_false]
            exact ih (k + 1) (fun i hi => by
              rw [show k + 1 + i = k + (i + 1) by omega]
              exact hk (i + 1) (by omega))
        rw [this (W * (1 + retries)) 0 (fun i hi => by simpa using hlock i hi)]
          at htry
        exact Option.noConfusion htry
    · intro m hm hlock hmin
      unfold add
      rw [h0]
      simp only [Bool.false_eq_true, if_false]
      unfold try_add
      rw [tryAddGo_first_locked W limit (fun k => shut (k + 1)) locked t qs idx
        (fun k => hshut (k + 1)) (W * (1 + retries)) 0 m hm
        (by simpa using hlock) (fun i hi => by simpa using hmin i hi)]
      simp

theorem add_enqueues_exactly_one_witness :
    0 < 2 ∧ (fun _ : Nat => false) 0 = false ∧
    (∃ j, j < 2 ∧
      add 2 4 32 (fun _ => false) (fun _ => false) (fun _ => []) 5 7
        = setQ (fun _ => []) j ((fun _ : Nat => ([] : List Nat)) j ++ [7])) :=
  ⟨by decide, rfl,
   (add_enqueues_exactly_one 2 4 32 (fun _ => false) (fun _ => false)
     (fun _ => []) 5 7 (by decide) rfl).1⟩

/-- Claim C9, counterexample: the shutdown flag is clear at `add_or_run`'s
initial read but set before the first probe; `__try_add` returns `False`, and
since `not self.__shutdown` was already evaluated `True`, `add_or_run` runs
the task synchronously — it is not silently discarded as the claim states. -/
theorem add_or_run_midprobe_counterexample :
    add_or_run 2 4 32 (fun k => decide (k ≠ 0)) (fun _ => true)
        (fun _ => []) 0 7
      = .ranSync (fun _ => []) ∧
    add_or_run 2 4 32 (fun k => decide (k ≠ 0)) (fun _ => true)
        (fun _ => []) 0 7
      ≠ .dropped (fun _ => []) := by
  constructor
  · rfl
  · intro h
    rw [show add_or_run 2 4 32 (fun k => decide (k ≠ 0)) (fun _ => true)
        (fun _ => []) 0 7 = .ranSync (fun _ => []) from rfl] at h
    exact AddOrRunOutcome.noConfusion h

/-- Claim C9 (amended): if the shutdown flag is set when `add_or_run` reads
it, the task is silently discarded (neither enqueued nor executed); if the
flag is clear at that read but set by the first probe, `__try_add` returns
`False` and `add_or_run` executes the task synchronously instead. -/
theorem add_or_run_shutdown (W retries limit : Nat) (shut locked : Nat → Bool)
    (qs : Nat → List Nat) (idx t : Nat) (hW : 0 < W) :
    (shut 0 = true →
      add_or_run W retries limit shut locked qs idx t = .dropped qs) ∧
    (shut 0 = false → shut 1 = true →
      add_or_run W retries limit shut locked qs idx t = .ranSync qs) := by
  constructor
  · intro h0
    unfold add_or_run
    rw [h0]
    rfl
  · intro h0 h1
    unfold add_or_run
    rw [h0]
    simp only [Bool.false_eq_true, if_false]
    have hpos : 0 < W * (1 + retries) := Nat.mul_pos hW (by omega)
    obtain ⟨r, hr⟩ := Nat.exists_eq_succ_of_ne_zero (Nat.pos_iff_ne_zero.mp hpos)
    unfold try_add
    rw [hr]
    unfold tryAddGo
    rw [h1]
    rfl

theorem add_or_run_shutdown_witness :
    0 < 2 ∧
    add_or_run 2 4 32 (fun _ => true) (fun _ => true) (fun _ => []) 0 7
      = .dropped (fun _ => []) :=
  ⟨by decide,
   (add_or_run_shutdown 2 4 32 (fun _ => true) (fun _ => true) (fun _ => [])
     0 7 (by decide)).1 rfl⟩

end TaskSystem

/-! ## Filesystem trees and the sync engine

From `class FileSystem` (`record_changes` / `apply_changes`, the default tree
mode of `FileSystem.sync`).  A filesystem node is a metadata tree; file
content is not modelled (the engine compares only node type, integer-second
mtime and permission bits, and `copy_file`/`copy_stat` are metadata-faithful,
for both `shutil.copy2` and `os.link`).  Directory listings are association
lists consulted by first match and updated by remove-all-then-append, so
duplicate names (impossible in a real directory) are harmless. -/

namespace FileSystem

/-- A filesystem node: regular file or symlink (`is_file`), directory, or
special node (socket, pipe, device — merged into one kind, faithfully: the
engine never compares the types of two special nodes, since special sources
are skipped before `node_stat`). -/
inductive FSTree where
  | file (symlink : Bool) (mtime : Int) (perm : Nat)
  | dir (mtime : Int) (perm : Nat) (children : List (String × FSTree))
  | special

/-- `FileSystem.is_dir` on an existing node. -/
def isDir : FSTree → Bool
  | .dir .. => true
  | _ => false

/-- `FileSystem.is_file` on an existing node. -/
def isFile : FSTree → Bool
  | .file .. => true
  | _ => false

/-- High bits of `st_mode`: node types agree (`FileSystem.same_types`). -/
def same_types : FSTree → FSTree → Bool
  | .file s₁ _ _, .file s₂ _ _ => s₁ = s₂
  | .dir .., .dir .. => true
  | .special, .special => true
  | _, _ => false

def mtimeOf : FSTree → Int
  | .file _ m _ => m
  | .dir m _ _ => m
  | .special => 0

def permOf : FSTree → Nat
  | .file _ _ p => p
  | .dir _ p _ => p
  | .special => 0

/-- Low nine permission bits agree (`FileSystem.same_permissions`). -/
def same_permissions (a b : FSTree) : Bool := permOf a = permOf b

/-- `FileSystem.exists`: the path resolves to a node (a dangling symlink is a
`file` node here). -/
def existsO : Option FSTree → Bool
  | some _ => true
  | none => false

def isDirO : Option FSTree → Bool
  | some t => isDir t
  | none => false

def isFileO : Option FSTree → Bool
  | some t => isFile t
  | none => false

/-- `FileSystem.is_special`: exists, neither dir nor file. -/
def is_specialO (t : Option FSTree) : Bool :=
  existsO t && !isDirO t && !isFileO t

/-- First entry named `n` of a directory listing (`os` path resolution). -/
def find? : List (String × FSTree) → String → Option FSTree
  | [], _ => none
  | (k, v) :: rest, n => if k = n then some v else find? rest n

/-- The node at `path / n`. -/
def childOf : Option FSTree → String → Option FSTree
  | some (.dir _ _ cs), n => find? cs n
  | _, _ => none

/-- Names of a directory listing (`FileSystem.listdir`). -/
def names (cs : List (String × FSTree)) : List String := cs.map Prod.fst

/-- Replace the node named `n` of a listing: remove every entry named `n`,
then append the new node if any. -/
def setChild (cs : List (String × FSTree)) (n : String) :
    Option FSTree → List (String × FSTree)
  | none => cs.filter (fun p => p.1 ≠ n)
  | some v => cs.filter (fun p => p.1 ≠ n) ++ [(n, v)]

/-- The node at a relative path. -/
def lookupT : Option FSTree → List String → Option FSTree
  | t, [] => t
  | some (.dir _ _ cs), n :: rest => lookupT (find? cs n) rest
  | _, _ :: _ => none

/-- `FileSystem.remove_node`: `shutil.rmtree` for directories, `remove_file`
for files — a special node is neither, and is left in place. -/
def remove_node : Option FSTree → Option FSTree
  | some (.dir ..) => none
  | some (.file ..) => none
  | t => t

/-- No node of the tree is special (claims about sync assume this of the
target: `remove_node` cannot delete a special node, and copying over one
raises or has device-dependent effects). -/
inductive NoSpecial : FSTree → Prop
  | file : ∀ s m p, NoSpecial (.file s m p)
  | dir : ∀ m p cs, (∀ q ∈ cs, NoSpecial q.2) → NoSpecial (.dir m p cs)

def NoSpecialO : Option FSTree → Prop
  | some t => NoSpecial t
  | none => True

/-- `FileSystem.ChangeType`. -/
inductive ChangeType where
  | NoChange
  | RemoveNode
  | CreateNode
  | UpdateNode
  | UpdateStat
deriving DecidableEq

/-- `FileChanges`: recursive map name ↦ (change, optional subchanges); a
non-`none` second component marks a directory. -/
inductive FileChanges where
  | mk (entries : List (String × ChangeType × Option FileChanges))

def FileChanges.entries : FileChanges → List (String × ChangeType × Option FileChanges)
  | .mk es => es

/-- `set.update(str)` iterates the *characters* of a string: the names added
by `nodes.update(src_path.name)` when the path is a file. -/
def charNames (nm : String) : List String := nm.data.map Char.toString

/-- Names contributed by one side of `nodes_to_sync`. -/
def sideNames : Option FSTree → String → List String
  | some (.dir _ _ cs), _ => names cs
  | some (.file ..), nm => charNames nm
  | _, _ => []

/-- `nodes_to_sync(src_path, tgt_path)` (a Python set; modelled as a
duplicate-free list). -/
def nodes_to_sync (srcName tgtName : String) (src tgt : Option FSTree) :
    List String :=
  (sideNames src srcName ++ sideNames tgt tgtName).dedup


theorem sizeOf_find?_some {cs : List (String × FSTree)} {n : String}
    {v : FSTree} (h : find? cs n = some v) : sizeOf v < sizeOf cs := by
  induction cs with
  | nil => simp [find?] at h
  | cons q rest ih =>
    obtain ⟨k, c⟩ := q
    unfold find? at h
    by_cases hk : k = n
    · rw [if_pos hk] at h
      simp only [Option.some.injEq] at h
      subst h
      simp only [List.cons.sizeOf_spec, Prod.mk.sizeOf_spec]
      omega
    · rw [if_neg hk] at h
      have := ih h
      simp only [List.cons.sizeOf_spec]
      omega

theorem sizeOf_childOf_some {src : Option FSTree} {n : String} {s : FSTree}
    (h : childOf src n = some s) : sizeOf (some s) < sizeOf src := by
  match src with
  | none => simp [childOf] at h
  | some (.file ..) => simp [childOf] at h
  | some .special => simp [childOf] at h
  | some (.dir m p cs) =>
    simp only [childOf] at h
    have := sizeOf_find?_some h
    simp only [Option.some.sizeOf_spec, FSTree.dir.sizeOf_spec]
    omega

mutual

/-- The body of `record_changes.recursive` for a single name `n` at relative
path `rel` below `(src, tgt)`: the recorded `(change_type, subchanges)` pair,
or `none` when the name is skipped or unchanged. -/
def recordEntryFor (excl : List (List String)) (rel : List String)
    (src tgt : Option FSTree) (n : String) :
    Option (ChangeType × Option FileChanges) :=
  if (rel ++ [n]) ∈ excl then none
  else
    match hs : childOf src n, childOf tgt n with
    | some .special, _ => none
    | none, _ => some (ChangeType.RemoveNode, none)
    | some (.dir sm sp scs), none =>
      some (ChangeType.UpdateNode,
        some (FileChanges.mk (recordEntries excl (rel ++ [n])
          (some (.dir sm sp scs)) none
          (nodes_to_sync n n (some (.dir sm sp scs)) none))))
    | some (.file _ _ _), none => some (ChangeType.UpdateNode, none)
    | some (.dir sm sp scs), some t =>
      if ¬ same_types (.dir sm sp scs) t then
        some (ChangeType.CreateNode,
          some (FileChanges.mk (recordEntries excl (rel ++ [n])
            (some (.dir sm sp scs)) (some t)
            (nodes_to_sync n n (some (.dir sm sp scs)) (some t)))))
      else
        some ((if same_permissions (.dir sm sp scs) t then ChangeType.NoChange
               else ChangeType.UpdateStat),
          some (FileChanges.mk (recordEntries excl (rel ++ [n])
            (some (.dir sm sp scs)) (some t)
            (nodes_to_sync n n (some (.dir sm sp scs)) (some t)))))
    | some (.file lk m p), some t =>
      if ¬ same_types (.file lk m p) t then some (ChangeType.CreateNode, none)
      else if mtimeOf (.file lk m p) ≠ mtimeOf t then
        some (ChangeType.UpdateNode, none)
      else none
termination_by (sizeOf src, 0)
decreasing_by
  all_goals simp_wf
  all_goals exact Prod.Lex.left _ _ (by
    have := sizeOf_childOf_some hs
    simpa using this)

/-- The loop of `record_changes.recursive` over the node names. -/
def recordEntries (excl : List (List String)) (rel : List String)
    (src tgt : Option FSTree) :
    List String → List (String × ChangeType × Option FileChanges)
  | [] => []
  | n :: rest =>
    (match recordEntryFor excl rel src tgt n with
      | some e => [(n, e)]
      | none => []) ++ recordEntries excl rel src tgt rest
termination_by l => (sizeOf src, 1 + l.length)
decreasing_by
  all_goals simp_wf
  · exact Prod.Lex.right _ (by omega)
  · exact Prod.Lex.right _ (by omega)

end

/-- `record_changes` (phase 1 of the tree mode): build the `FileChanges` map
for the node pair at relative path `rel` (`srcName`/`tgtName` are the
basenames of the two paths, used only by `nodes_to_sync` when a node is not a
directory). -/
def record_changes (excl : List (List String)) (rel : List String)
    (srcName tgtName : String) (src tgt : Option FSTree) : FileChanges :=
  FileChanges.mk
    (recordEntries excl rel src tgt (nodes_to_sync srcName tgtName src tgt))

/-- `copy_stat`: copy mode and times, without following symlinks. -/
def copy_stat (srcN cur : Option FSTree) : Option FSTree :=
  match srcN, cur with
  | some s, some (.dir _ _ cs2) => some (.dir (mtimeOf s) (permOf s) cs2)
  | some s, some (.file lk _ _) => some (.file lk (mtimeOf s) (permOf s))
  | _, cur2 => cur2

/-- `copy_node` of `apply_changes`: for a directory entry, optionally clear,
`makedirs(exist_ok=True)`, then `copy_stat`; for a file entry, `copy_file`
(which removes the target first; hard link and `copy2` agree on metadata). -/
def copy_node (srcN cur : Option FSTree) (isDirEntry : Bool) (clear : Bool) :
    Option FSTree :=
  match srcN with
  | none => cur
  | some s =>
    if isDirEntry then
      match (if clear then remove_node cur else cur) with
      | none => some (.dir (mtimeOf s) (permOf s) [])
      | some (.dir _ _ cs2) => some (.dir (mtimeOf s) (permOf s) cs2)
      | some other => some other
    else
      match remove_node cur with
      | none => some s
      | some leftover => some leftover

/-- The per-entry action of `apply_changes.recursive` on the target node
(before descending into subchanges). -/
def applyAction (srcN cur : Option FSTree) (isDirEntry : Bool) :
    ChangeType → Option FSTree
  | .RemoveNode => remove_node cur
  | .UpdateNode => copy_node srcN cur isDirEntry false
  | .CreateNode => copy_node srcN cur isDirEntry true
  | .UpdateStat => copy_stat srcN cur
  | .NoChange => cur

/-- The loop of `apply_changes.recursive` over recorded entries: act on each
entry's target path, then descend into its subchanges (the descent into an
empty map is a no-op, matching the falsy-empty-dict guard `if subchanges:`).
When the node a descent starts from is not a directory, every action below it
addresses a path below a non-directory and the Python calls either no-op or
raise; such an input never arises from `record_changes` output after the
parent entry's action. -/
def applyEntriesL (src : Option FSTree) (cs : List (String × FSTree)) :
    List (String × ChangeType × Option FileChanges) → List (String × FSTree)
  | [] => cs
  | (n, c, none) :: rest =>
    applyEntriesL src
      (setChild cs n (applyAction (childOf src n) (find? cs n) false c)) rest
  | (n, c, some (.mk es2)) :: rest =>
    applyEntriesL src
      (setChild cs n
        (match applyAction (childOf src n) (find? cs n) true c with
          | some (.dir m2 p2 cs2) =>
            some (.dir m2 p2 (applyEntriesL (childOf src n) cs2 es2))
          | t => t))
      rest
termination_by es => sizeOf es
decreasing_by
  all_goals simp_wf
  all_goals omega

/-- The per-entry result of `apply_changes.recursive`: the action on the
entry's target node followed by the descent into its subchanges. -/
def applyEntry (srcN cur : Option FSTree) (c : ChangeType) :
    Option FileChanges → Option FSTree
  | none => applyAction srcN cur false c
  | some (.mk es2) =>
    match applyAction srcN cur true c with
    | some (.dir m2 p2 cs2) => some (.dir m2 p2 (applyEntriesL srcN cs2 es2))
    | t => t

/-- `apply_changes` (phase 2 of the tree mode): perform the recorded actions
below the node pair `(src, tgt)`. -/
def apply_changes (src tgt : Option FSTree) : FileChanges → Option FSTree
  | .mk es =>
    match tgt with
    | some (.dir m p cs) => some (.dir m p (applyEntriesL src cs es))
    | t => t

theorem applyEntriesL_cons (src : Option FSTree) (cs : List (String × FSTree))
    (n : String) (c : ChangeType) (sub : Option FileChanges)
    (rest : List (String × ChangeType × Option FileChanges)) :
    applyEntriesL src cs ((n, c, sub) :: rest)
      = applyEntriesL src
          (setChild cs n (applyEntry (childOf src n) (find? cs n) c sub)) rest := by
  cases sub with
  | none => simp [applyEntriesL, applyEntry]
  | some ch =>
    obtain ⟨es2⟩ := ch
    simp [applyEntriesL, applyEntry]

/-- `FileSystem.sync` in the default tree mode with include paths `['.']`:
`record_changes` then `apply_changes` at the two roots.  The
`os.makedirs(target / '.', exist_ok=True)` precondition is the `isDir T`
hypothesis of the theorems about it; the root basenames only matter when a
root is not a directory and are passed as `""`. -/
def syncTree (excl : List (List String)) (S T : FSTree) : Option FSTree :=
  apply_changes (some S) (some T)
    (record_changes excl [] "" "" (some S) (some T))


/-! ### Lookup and update lemmas for directory listings and change maps -/

theorem find?_eq_none_iff (cs : List (String × FSTree)) (n : String) :
    find? cs n = none ↔ n ∉ names cs := by
  induction cs with
  | nil => simp [find?, names]
  | cons q rest ih =>
    obtain ⟨k, v⟩ := q
    by_cases hk : k = n
    · subst hk
      simp [find?, names]
    · unfold find?
      rw [if_neg hk, ih]
      simp only [names, List.map_cons, List.mem_cons]
      constructor
      · intro h hor
        rcases hor with h1 | h2
        · exact hk h1.symm
        · exact h h2
      · intro h h2
        exact h (Or.inr h2)

theorem find?_mem {cs : List (String × FSTree)} {n : String} {v : FSTree}
    (h : find? cs n = some v) : ∃ q ∈ cs, q.2 = v := by
  induction cs with
  | nil => simp [find?] at h
  | cons q rest ih =>
    obtain ⟨k, c⟩ := q
    unfold find? at h
    by_cases hk : k = n
    · rw [if_pos hk] at h
      simp only [Option.some.injEq] at h
      exact ⟨(k, c), by simp, h⟩
    · rw [if_neg hk] at h
      obtain ⟨q, hq, hqv⟩ := ih h
      exact ⟨q, by simp [hq], hqv⟩

theorem find?_filter (cs : List (String × FSTree)) (n k : String) :
    find? (cs.filter (fun p => p.1 ≠ n)) k
      = if k = n then none else find? cs k := by
  induction cs with
  | nil => simp [find?]
  | cons q rest ih =>
    obtain ⟨m, v⟩ := q
    by_cases hmn : m = n
    · rw [List.filter_cons_of_neg (by simp [hmn])]
      rw [ih]
      by_cases hkn : k = n
      · simp [hkn]
      · simp only [if_neg hkn]
        rw [find?, if_neg (by rw [hmn]; exact fun h => hkn h.symm)]
    · rw [List.filter_cons_of_pos (by simp [hmn])]
      rw [find?, ih, find?]
      by_cases hmk : m = k
      · have : ¬ k = n := by rw [← hmk]; simpa [eq_comm] using hmn
        simp [hmk, this]
      · simp [hmk]

theorem find?_append (l₁ l₂ : List (String × FSTree)) (n : String) :
    find? (l₁ ++ l₂) n
      = match find? l₁ n with
        | some v => some v
        | none => find? l₂ n := by
  induction l₁ with
  | nil => simp [find?]
  | cons q rest ih =>
    obtain ⟨k, v⟩ := q
    by_cases hk : k = n
    · simp [find?, hk]
    · simp [find?, hk, ih]

theorem find?_setChild_self (cs : List (String × FSTree)) (n : String)
    (v : Option FSTree) : find? (setChild cs n v) n = v := by
  cases v with
  | none =>
    show find? (cs.filter (fun p => p.1 ≠ n)) n = none
    rw [find?_filter]
    simp
  | some x =>
    show find? (cs.filter (fun p => p.1 ≠ n) ++ [(n, x)]) n = some x
    rw [find?_append, find?_filter]
    simp [find?]

theorem find?_setChild_ne (cs : List (String × FSTree)) (n k : String)
    (v : Option FSTree) (h : k ≠ n) :
    find? (setChild cs n v) k = find? cs k := by
  cases v with
  | none =>
    show find? (cs.filter (fun p => p.1 ≠ n)) k = find? cs k
    rw [find?_filter]
    simp [h]
  | some x =>
    show find? (cs.filter (fun p => p.1 ≠ n) ++ [(n, x)]) k = find? cs k
    rw [find?_append, find?_filter]
    rw [if_neg h]
    cases hf : find? cs k with
    | none =>
      simp only [find?]
      rw [if_neg (fun h2 : n = k => h h2.symm)]
    | some v2 => rfl

def lookupEntry :
    List (String × ChangeType × Option FileChanges) → String →
      Option (ChangeType × Option FileChanges)
  | [], _ => none
  | (k, e) :: rest, n => if k = n then some e else lookupEntry rest n

theorem lookupEntry_eq_none_iff
    (es : List (String × ChangeType × Option FileChanges)) (n : String) :
    lookupEntry es n = none ↔ n ∉ es.map Prod.fst := by
  induction es with
  | nil => simp [lookupEntry]
  | cons q rest ih =>
    obtain ⟨k, e⟩ := q
    by_cases hk : k = n
    · subst hk
      simp [lookupEntry]
    · unfold lookupEntry
      rw [if_neg hk, ih]
      simp only [List.map_cons, List.mem_cons]
      constructor
      · intro h hor
        rcases hor with h1 | h2
        · exact hk h1.symm
        · exact h h2
      · intro h h2
        exact h (Or.inr h2)

theorem recordEntries_names_sub (excl : List (List String)) (rel : List String)
    (src tgt : Option FSTree) (l : List String) :
    ∀ x ∈ (recordEntries excl rel src tgt l).map Prod.fst, x ∈ l := by
  induction l with
  | nil => intro x hx; simp [recordEntries] at hx
  | cons n rest ih =>
    intro x hx
    rw [recordEntries] at hx
    rcases (by simpa using hx :
        x ∈ ((match recordEntryFor excl rel src tgt n with
          | some e => [(n, e)]
          | none => []).map Prod.fst)
          ∨ x ∈ (recordEntries excl rel src tgt rest).map Prod.fst) with h | h
    · cases he : recordEntryFor excl rel src tgt n with
      | none => rw [he] at h; simp at h
      | some e =>
        rw [he] at h
        simp at h
        simp [h]
    · simp [ih x h]

theorem recordEntries_names_nodup (excl : List (List String))
    (rel : List String) (src tgt : Option FSTree) (l : List String)
    (hl : l.Nodup) :
    ((recordEntries excl rel src tgt l).map Prod.fst).Nodup := by
  induction l with
  | nil => simp [recordEntries]
  | cons n rest ih =>
    rw [List.nodup_cons] at hl
    rw [recordEntries]
    cases he : recordEntryFor excl rel src tgt n with
    | none => simpa using ih hl.2
    | some e =>
      simp only [List.map_append, List.map_cons]
      rw [List.nodup_append]
      refine ⟨by simp, ih hl.2, ?_⟩
      intro x hx hx2
      simp only [List.map_nil, List.mem_singleton] at hx
      subst hx
      exact hl.1 (recordEntries_names_sub excl rel src tgt rest x hx2)

theorem lookupEntry_recordEntries (excl : List (List String))
    (rel : List String) (src tgt : Option FSTree) (l : List String)
    (n : String) :
    lookupEntry (recordEntries excl rel src tgt l) n
      = if n ∈ l then recordEntryFor excl rel src tgt n else none := by
  induction l with
  | nil => simp [recordEntries, lookupEntry]
  | cons m rest ih =>
    rw [recordEntries]
    by_cases hmn : m = n
    · subst hmn
      cases he : recordEntryFor excl rel src tgt m with
      | some e => simp [lookupEntry, he]
      | none =>
        simp only [List.nil_append]
        rw [ih]
        by_cases hr : m ∈ rest <;> simp [hr, he]
    · cases he : recordEntryFor excl rel src tgt m with
      | some e =>
        rw [List.singleton_append]
        unfold lookupEntry
        rw [if_neg hmn, ih]
        have hnm : ¬ n = m := fun h => hmn h.symm
        simp [hnm]
      | none =>
        rw [List.nil_append, ih]
        have hnm : ¬ n = m := fun h => hmn h.symm
        simp [hnm]

theorem applyEntriesL_find? (src : Option FSTree) :
    ∀ (es : List (String × ChangeType × Option FileChanges))
      (cs : List (String × FSTree)),
      (es.map Prod.fst).Nodup → ∀ n,
      find? (applyEntriesL src cs es) n
        = match lookupEntry es n with
          | some (c, sub) => applyEntry (childOf src n) (find? cs n) c sub
          | none => find? cs n := by
  intro es
  induction es with
  | nil => intro cs _ n; simp [applyEntriesL, lookupEntry]
  | cons q rest ih =>
    obtain ⟨k, c, sub⟩ := q
    intro cs hnd n
    simp only [List.map_cons, List.nodup_cons] at hnd
    rw [applyEntriesL_cons]
    rw [ih _ hnd.2 n]
    by_cases hkn : k = n
    · subst hkn
      have : lookupEntry rest k = none :=
        (lookupEntry_eq_none_iff rest k).mpr hnd.1
      rw [this]
      simp only [lookupEntry, if_pos rfl]
      rw [find?_setChild_self]
      simp
    · simp only [lookupEntry, if_neg hkn]
      rw [find?_setChild_ne _ _ _ _ (fun h => hkn h.symm)]


/-! ### The effect of one sync pass, per node

`SyncedNode src pre post` characterises the post-sync target node `post` at a
path in terms of the source node `src` and the pre-sync target node `pre` at
that path (claims C1, C2, C5). -/

theorem sizeOf_find?_opt {cs : List (String × FSTree)} {n : String} :
    sizeOf (find? cs n) ≤ sizeOf cs := by
  cases h : find? cs n with
  | none =>
    simp only [Option.none.sizeOf_spec]
    cases cs with
    | nil => simp
    | cons q rest => simp; omega
  | some v =>
    have := sizeOf_find?_some h
    simp only [Option.some.sizeOf_spec]
    omega

/-- The per-path outcome of `record_changes` + `apply_changes` on a
special-free target: given source node `src` and pre-sync target node `pre`
at a path, `post` is the node there after the pass. -/
def SyncedNode : Option FSTree → Option FSTree → Option FSTree → Prop
  | none, _, post => post = none
  | some .special, pre, post => post = pre
  | some (.file lk m p), pre, post =>
    (match pre with
      | some (.file lk2 m2 p2) =>
        if lk2 = lk ∧ m2 = m then post = some (.file lk2 m2 p2)
        else post = some (.file lk m p)
      | _ => post = some (.file lk m p))
  | some (.dir m p cs), pre, post =>
    ∃ m2 cs2, post = some (.dir m2 p cs2) ∧
      (m2 = m ∨ (∃ tcs, pre = some (.dir m2 p tcs))) ∧
      ∀ n, SyncedNode (find? cs n) (childOf pre n) (find? cs2 n)
termination_by src _ _ => sizeOf src
decreasing_by
  simp_wf
  cases h : find? cs n with
  | none => simp
  | some v =>
    have := sizeOf_find?_some h
    simp
    omega

theorem noSpecial_find? {cs : List (String × FSTree)} {n : String} {v : FSTree}
    (hcs : ∀ q ∈ cs, NoSpecial q.2) (h : find? cs n = some v) : NoSpecial v := by
  obtain ⟨q, hq, hqv⟩ := find?_mem h
  exact hqv ▸ hcs q hq

theorem NoSpecial.children_of_dir {m : Int} {p : Nat}
    {cs : List (String × FSTree)} (h : NoSpecial (.dir m p cs)) :
    ∀ q ∈ cs, NoSpecial q.2 := by
  cases h with
  | dir _ _ _ hch => exact hch

theorem remove_node_of_noSpecial {v : FSTree} (h : NoSpecial v) :
    remove_node (some v) = none := by
  cases h <;> rfl

theorem NoSpecial.ne_special {v : FSTree} (h : NoSpecial v) : v ≠ .special := by
  cases h <;> simp


theorem sizeOf_subdir_lt {scs : List (String × FSTree)} {n : String}
    {sm2 : Int} {sp2 : Nat} {scs2 : List (String × FSTree)}
    (h : find? scs n = some (.dir sm2 sp2 scs2)) : sizeOf scs2 < sizeOf scs := by
  have := sizeOf_find?_some h
  simp only [FSTree.dir.sizeOf_spec] at this
  omega

/-- Master characterisation of one tree-mode sync pass below a pair of
directories: applying the recorded changes transforms each child as
`SyncedNode` describes.  `cs` is the actual target listing when the entries
are applied, whose per-name lookups agree with the target view `tgtView` that
`record_changes` consulted (they are the same listing except under a
`CreateNode` that replaced a non-directory by a fresh empty directory, where
both lookups are `none`). -/
theorem synced_master (N : Nat) :
    ∀ (scs : List (String × FSTree)), sizeOf scs ≤ N →
    ∀ (sm : Int) (sp : Nat) (rel : List String) (a b : String)
      (tgtView : Option FSTree) (cs : List (String × FSTree)),
      (∀ k, find? cs k = childOf tgtView k) →
      (∀ q ∈ cs, NoSpecial q.2) →
      ∀ n,
        SyncedNode (find? scs n) (find? cs n)
          (find? (applyEntriesL (some (.dir sm sp scs)) cs
            (recordEntries [] rel (some (.dir sm sp scs)) tgtView
              (nodes_to_sync a b (some (.dir sm sp scs)) tgtView))) n) := by
  induction N using Nat.strong_induction_on with
  | _ N IH =>
  intro scs hN sm sp rel a b tgtView cs H1 H2 n
  have hnodup : ((recordEntries [] rel (some (.dir sm sp scs)) tgtView
      (nodes_to_sync a b (some (.dir sm sp scs)) tgtView)).map
        Prod.fst).Nodup :=
    recordEntries_names_nodup _ _ _ _ _ (List.nodup_dedup _)
  rw [applyEntriesL_find? _ _ _ hnodup n]
  rw [lookupEntry_recordEntries]
  by_cases hmem : n ∈ nodes_to_sync a b (some (.dir sm sp scs)) tgtView
  case neg =>
    rw [if_neg hmem]
    have hmem2 : n ∉ names scs ∧ n ∉ sideNames tgtView b := by
      rw [nodes_to_sync] at hmem
      simp only [List.mem_dedup, List.mem_append, not_or] at hmem
      exact hmem
    have hsrc : find? scs n = none := (find?_eq_none_iff scs n).mpr hmem2.1
    have htgt : find? cs n = none := by
      rw [H1 n]
      match tgtView with
      | none => rfl
      | some .special => rfl
      | some (.file lk m p) => rfl
      | some (.dir tm tp tcs) =>
        show find? tcs n = none
        exact (find?_eq_none_iff tcs n).mpr hmem2.2
    rw [hsrc, htgt]
    simp [SyncedNode]
  case pos =>
    rw [if_pos hmem]
    rw [recordEntryFor]
    rw [if_neg (by simp)]
    have hsrcdef : childOf (some (FSTree.dir sm sp scs)) n = find? scs n := rfl
    split
    -- the per-name entry is `some (c, sub)`
    · rename_i c sub heq
      split at heq
      -- source child is special: no entry is recorded (contradiction here)
      · exact absurd heq (by simp)
      -- source child missing: RemoveNode
      · rename_i hsa
        rw [hsrcdef] at hsa
        simp only [Option.some.injEq, Prod.mk.injEq] at heq
        obtain ⟨hc, hsub⟩ := heq
        subst hc; subst hsub
        rw [hsrcdef, hsa]
        simp only [applyEntry, applyAction]
        simp only [SyncedNode]
        cases htgt : find? cs n with
        | none => rfl
        | some v => exact remove_node_of_noSpecial (noSpecial_find? H2 htgt)
      -- source child a directory, target child missing: UpdateNode + descend
      · rename_i sm2 sp2 scs2 hsa hta
        rw [hsrcdef] at hsa
        have htgt : find? cs n = none := by rw [H1 n, hta]
        simp only [Option.some.injEq, Prod.mk.injEq] at heq
        obtain ⟨hc, hsub⟩ := heq
        subst hc; subst hsub
        rw [hsrcdef, hsa, htgt]
        simp only [applyEntry, applyAction, copy_node, mtimeOf, permOf]
        simp only [SyncedNode]
        refine ⟨sm2, _, rfl, Or.inl rfl, ?_⟩
        intro k
        have hlt : sizeOf scs2 < sizeOf scs := sizeOf_subdir_lt hsa
        have hih := IH (sizeOf scs2) (lt_of_lt_of_le hlt hN) scs2 le_rfl sm2 sp2
          (rel ++ [n]) n n none [] (fun k2 => rfl) (by simp) k
        simpa [childOf, find?] using hih
      -- source child a file, target child missing: UpdateNode, no subchanges
      · rename_i lk m p hsa hta
        rw [hsrcdef] at hsa
        have htgt : find? cs n = none := by rw [H1 n, hta]
        simp only [Option.some.injEq, Prod.mk.injEq] at heq
        obtain ⟨hc, hsub⟩ := heq
        subst hc; subst hsub
        rw [hsrcdef, hsa, htgt]
        simp only [applyEntry, applyAction, copy_node, remove_node]
        simp only [SyncedNode]
        simp
      -- source child a directory, target child exists
      · rename_i sm2 sp2 scs2 t hsa hta
        rw [hsrcdef] at hsa
        have htgt : find? cs n = some t := by rw [H1 n, hta]
        have hts : NoSpecial t := noSpecial_find? H2 htgt
        have hlt : sizeOf scs2 < sizeOf scs := sizeOf_subdir_lt hsa
        cases t with
        | special => exact absurd rfl hts.ne_special
        | file lk2 m2 p2 =>
          -- node types differ: CreateNode over the file, then descend
          rw [if_pos (by simp [same_types])] at heq
          simp only [Option.some.injEq, Prod.mk.injEq] at heq
          obtain ⟨hc, hsub⟩ := heq
          subst hc; subst hsub
          rw [hsrcdef, hsa, htgt]
          simp only [applyEntry, applyAction, copy_node, remove_node, mtimeOf,
            permOf]
          simp only [SyncedNode]
          refine ⟨sm2, _, rfl, Or.inl rfl, ?_⟩
          intro k
          have hih := IH (sizeOf scs2) (lt_of_lt_of_le hlt hN) scs2 le_rfl
            sm2 sp2 (rel ++ [n]) n n (some (.file lk2 m2 p2)) []
            (fun k2 => rfl) (by simp) k
          simpa [childOf, find?] using hih
        | dir tm tp tcs =>
          rw [if_neg (by simp [same_types])] at heq
          simp only [Option.some.injEq, Prod.mk.injEq] at heq
          obtain ⟨hc, hsub⟩ := heq
          subst hc; subst hsub
          rw [hsrcdef, hsa, htgt]
          by_cases hperm : same_permissions (.dir sm2 sp2 scs2) (.dir tm tp tcs)
            = true
          · have hperm2 : sp2 = tp := by
              simpa [same_permissions, permOf] using hperm
            rw [if_pos hperm]
            simp only [applyEntry, applyAction]
            simp only [SyncedNode]
            subst hperm2
            refine ⟨tm, _, rfl, Or.inr ⟨tcs, rfl⟩, ?_⟩
            intro k
            have hih := IH (sizeOf scs2) (lt_of_lt_of_le hlt hN) scs2 le_rfl
              sm2 sp2 (rel ++ [n]) n n (some (.dir tm sp2 tcs)) tcs
              (fun k2 => rfl) (hts.children_of_dir) k
            simpa [childOf] using hih
          · rw [if_neg hperm]
            simp only [applyEntry, applyAction, copy_stat, mtimeOf, permOf]
            simp only [SyncedNode]
            refine ⟨sm2, _, rfl, Or.inl rfl, ?_⟩
            intro k
            have hih := IH (sizeOf scs2) (lt_of_lt_of_le hlt hN) scs2 le_rfl
              sm2 sp2 (rel ++ [n]) n n (some (.dir tm tp tcs)) tcs
              (fun k2 => rfl) (hts.children_of_dir) k
            simpa [childOf] using hih
      -- source child a file, target child exists
      · rename_i lk m p t hsa hta
        rw [hsrcdef] at hsa
        have htgt : find? cs n = some t := by rw [H1 n, hta]
        have hts : NoSpecial t := noSpecial_find? H2 htgt
        cases t with
        | special => exact absurd rfl hts.ne_special
        | dir tm tp tcs =>
          rw [if_pos (by simp [same_types])] at heq
          simp only [Option.some.injEq, Prod.mk.injEq] at heq
          obtain ⟨hc, hsub⟩ := heq
          subst hc; subst hsub
          rw [hsrcdef, hsa, htgt]
          simp only [applyEntry, applyAction, copy_node, remove_node]
          simp only [SyncedNode]
          simp
        | file lk2 m2 p2 =>
          by_cases hlk : lk = lk2
          · rw [if_neg (by simp [same_types, hlk])] at heq
            by_cases hm : mtimeOf (.file lk m p) ≠ mtimeOf (.file lk2 m2 p2)
            · rw [if_pos hm] at heq
              simp only [Option.some.injEq, Prod.mk.injEq] at heq
              obtain ⟨hc, hsub⟩ := heq
              subst hc; subst hsub
              rw [hsrcdef, hsa, htgt]
              simp only [applyEntry, applyAction, copy_node, remove_node]
              simp only [SyncedNode]
              rw [if_neg (by
                simp only [mtimeOf, ne_eq] at hm
                intro hand
                exact hm (hand.2.symm))]
              simp
            · rw [if_neg hm] at heq
              exact absurd heq (by simp)
          · rw [if_pos (by simp [same_types, hlk])] at heq
            simp only [Option.some.injEq, Prod.mk.injEq] at heq
            obtain ⟨hc, hsub⟩ := heq
            subst hc; subst hsub
            rw [hsrcdef, hsa, htgt]
            simp only [applyEntry, applyAction, copy_node, remove_node]
            simp only [SyncedNode]
            rw [if_neg (by
              intro hand
              exact hlk (hand.1.symm))]
            simp
    -- the per-name entry is `none`: the target child is untouched
    · rename_i heq
      split at heq
      -- source child special: skipped, target child untouched
      · rename_i hsa
        rw [hsrcdef] at hsa
        rw [hsa]
        simp only [SyncedNode]
      · exact absurd heq (by simp)
      · exact absurd heq (by simp)
      · exact absurd heq (by simp)
      -- directory/existing: both branches record an entry (contradiction)
      · rename_i sm2 sp2 scs2 t hsa hta
        by_cases hst : same_types (.dir sm2 sp2 scs2) t = true
        · rw [if_neg (by simp [hst])] at heq
          exact absurd heq (by simp)
        · rw [if_pos (by simp [hst])] at heq
          exact absurd heq (by simp)
      -- file/existing with same type and equal truncated mtime: no entry
      · rename_i lk m p t hsa hta
        rw [hsrcdef] at hsa
        have htgt : find? cs n = some t := by rw [H1 n, hta]
        have hts : NoSpecial t := noSpecial_find? H2 htgt
        cases t with
        | special => exact absurd rfl hts.ne_special
        | dir tm tp tcs =>
          rw [if_pos (by simp [same_types])] at heq
          exact absurd heq (by simp)
        | file lk2 m2 p2 =>
          by_cases hlk : lk = lk2
          · rw [if_neg (by simp [same_types, hlk])] at heq
            by_cases hm : mtimeOf (.file lk m p) ≠ mtimeOf (.file lk2 m2 p2)
            · rw [if_pos hm] at heq
              exact absurd heq (by simp)
            · simp only [mtimeOf, ne_eq, not_not] at hm
              rw [hsa, htgt]
              simp only [SyncedNode]
              rw [if_pos ⟨hlk.symm, hm.symm⟩]
              trivial
          · rw [if_pos (by simp [same_types, hlk])] at heq
            exact absurd heq (by simp)

theorem lookupT_cons (t : Option FSTree) (n : String) (rest : List String) :
    lookupT t (n :: rest) = lookupT (childOf t n) rest := by
  match t with
  | some (.dir m p cs) => rfl
  | none => cases rest <;> rfl
  | some (.file ..) => cases rest <;> rfl
  | some .special => cases rest <;> rfl

/-- Unfolding `syncTree` at a pair of directory roots: `apply_changes` keeps
the target root node and rewrites its listing. -/
theorem syncTree_eq (sm tm : Int) (sp tp : Nat)
    (scs tcs : List (String × FSTree)) :
    syncTree [] (.dir sm sp scs) (.dir tm tp tcs)
      = some (.dir tm tp (applyEntriesL (some (.dir sm sp scs)) tcs
          (recordEntries [] [] (some (.dir sm sp scs))
            (some (.dir tm tp tcs))
            (nodes_to_sync "" "" (some (.dir sm sp scs))
              (some (.dir tm tp tcs)))))) := rfl

/-- One sync pass relates each root child of source, pre-target and
post-target by `SyncedNode`. -/
theorem syncTree_child (sm tm : Int) (sp tp : Nat)
    (scs tcs : List (String × FSTree)) (hT : NoSpecial (.dir tm tp tcs)) :
    ∀ n, SyncedNode (find? scs n) (find? tcs n)
      (childOf (syncTree [] (.dir sm sp scs) (.dir tm tp tcs)) n) := by
  intro n
  exact synced_master (sizeOf scs) scs le_rfl sm sp [] "" ""
    (some (.dir tm tp tcs)) tcs (fun k => rfl) hT.children_of_dir n

/-- `SyncedNode` transports along any relative path when the source tree is
special-free. -/
theorem syncedNode_lookupT (p : List String) :
    ∀ (src pre post : Option FSTree), NoSpecialO src → SyncedNode src pre post →
      NoSpecialO (lookupT src p)
        ∧ SyncedNode (lookupT src p) (lookupT pre p) (lookupT post p) := by
  induction p with
  | nil =>
    intro src pre post hns hsyn
    have h : ∀ t : Option FSTree, lookupT t [] = t := by
      intro t; match t with
      | none => rfl
      | some (.dir ..) => rfl
      | some (.file ..) => rfl
      | some .special => rfl
    rw [h, h, h]
    exact ⟨hns, hsyn⟩
  | cons n rest ih =>
    intro src pre post hns hsyn
    match src with
    | none =>
      simp only [SyncedNode] at hsyn
      subst hsyn
      have h : lookupT none (n :: rest) = none := rfl
      rw [h]
      refine ⟨trivial, ?_⟩
      simp only [SyncedNode]
    | some .special =>
      exact absurd rfl (NoSpecial.ne_special hns)
    | some (.file lk m pr) =>
      have hpost : ∃ a b c, post = some (FSTree.file a b c) := by
        match pre with
        | some (.file lk2 m2 p2) =>
          simp only [SyncedNode] at hsyn
          by_cases hcond : lk2 = lk ∧ m2 = m
          · rw [if_pos hcond] at hsyn; exact ⟨lk2, m2, p2, hsyn⟩
          · rw [if_neg hcond] at hsyn; exact ⟨lk, m, pr, hsyn⟩
        | none => simp only [SyncedNode] at hsyn; exact ⟨lk, m, pr, hsyn⟩
        | some .special =>
          simp only [SyncedNode] at hsyn; exact ⟨lk, m, pr, hsyn⟩
        | some (.dir ..) =>
          simp only [SyncedNode] at hsyn; exact ⟨lk, m, pr, hsyn⟩
      obtain ⟨a, b, c, hp⟩ := hpost
      subst hp
      have h1 : lookupT (some (FSTree.file lk m pr)) (n :: rest) = none := rfl
      have h2 : lookupT (some (FSTree.file a b c)) (n :: rest) = none := rfl
      rw [h1, h2]
      refine ⟨trivial, ?_⟩
      simp only [SyncedNode]
    | some (.dir m pr cs) =>
      simp only [SyncedNode] at hsyn
      obtain ⟨m2, cs2, hpost, _, hch⟩ := hsyn
      subst hpost
      rw [lookupT_cons, lookupT_cons, lookupT_cons]
      simp only [childOf]
      have hnsc : NoSpecialO (find? cs n) := by
        cases hf : find? cs n with
        | none => trivial
        | some v => exact noSpecial_find? (NoSpecial.children_of_dir hns) hf
      exact ih (find? cs n) (childOf pre n) (find? cs2 n) hnsc (hch n)

/-- **C1** (amended).  After `sync(S, T)` in the default tree mode with
default include paths and empty excludes, between directory roots whose trees
are special-free: every path under S exists in the post-sync target with the
same node type; a file keeps its symlink flag and integer-second mtime, and
its permission bits equal the source's unless the pre-sync target already
held a file of the same symlink flag and mtime there (whose permissions are
then kept); a directory keeps the source's permission bits, and its mtime is
the source's unless the pre-sync target already held a directory of the same
permissions there (whose mtime is then kept); and every path absent under S
is absent from the post-sync target. -/
theorem sync_tree_paths (sm tm : Int) (sp tp : Nat)
    (scs tcs : List (String × FSTree))
    (hS : NoSpecial (.dir sm sp scs)) (hT : NoSpecial (.dir tm tp tcs)) :
    ∀ p : List String, p ≠ [] →
      (lookupT (some (.dir sm sp scs)) p = none →
        lookupT (syncTree [] (.dir sm sp scs) (.dir tm tp tcs)) p = none) ∧
      (∀ lk m pr, lookupT (some (.dir sm sp scs)) p = some (.file lk m pr) →
        ∃ pr2, lookupT (syncTree [] (.dir sm sp scs) (.dir tm tp tcs)) p
            = some (.file lk m pr2) ∧
          (pr2 = pr ∨
            lookupT (some (.dir tm tp tcs)) p = some (.file lk m pr2))) ∧
      (∀ m pr cs, lookupT (some (.dir sm sp scs)) p = some (.dir m pr cs) →
        ∃ m2 cs2, lookupT (syncTree [] (.dir sm sp scs) (.dir tm tp tcs)) p
            = some (.dir m2 pr cs2) ∧
          (m2 = m ∨
            ∃ cs3, lookupT (some (.dir tm tp tcs)) p
              = some (.dir m2 pr cs3))) := by
  intro p hp
  match p with
  | [] => exact absurd rfl hp
  | n :: rest =>
  have hroot := syncTree_child sm tm sp tp scs tcs hT n
  have hnsc : NoSpecialO (find? scs n) := by
    cases hf : find? scs n with
    | none => trivial
    | some v => exact noSpecial_find? (NoSpecial.children_of_dir hS) hf
  have htrans := syncedNode_lookupT rest (find? scs n) (find? tcs n)
    (childOf (syncTree [] (.dir sm sp scs) (.dir tm tp tcs)) n) hnsc hroot
  obtain ⟨-, hsyn⟩ := htrans
  have hSlook : lookupT (some (FSTree.dir sm sp scs)) (n :: rest)
      = lookupT (find? scs n) rest := rfl
  have hTlook : lookupT (some (FSTree.dir tm tp tcs)) (n :: rest)
      = lookupT (find? tcs n) rest := rfl
  have hPlook : lookupT (syncTree [] (.dir sm sp scs) (.dir tm tp tcs))
      (n :: rest)
      = lookupT (childOf (syncTree [] (.dir sm sp scs) (.dir tm tp tcs)) n)
          rest := by
    rw [syncTree_eq, lookupT_cons]
  rw [hSlook, hTlook, hPlook]
  refine ⟨?_, ?_, ?_⟩
  · intro hnone
    rw [hnone] at hsyn
    simpa only [SyncedNode] using hsyn
  · intro lk m pr hfile
    rw [hfile] at hsyn
    revert hsyn
    generalize lookupT (find? tcs n) rest = pre
    generalize lookupT (childOf (syncTree [] (.dir sm sp scs)
      (.dir tm tp tcs)) n) rest = post
    intro hsyn
    match pre with
    | some (.file lk2 m2 p2) =>
      simp only [SyncedNode] at hsyn
      by_cases hcond : lk2 = lk ∧ m2 = m
      · rw [if_pos hcond] at hsyn
        obtain ⟨hlk, hm⟩ := hcond
        subst hlk; subst hm
        exact ⟨p2, hsyn, Or.inr rfl⟩
      · rw [if_neg hcond] at hsyn
        exact ⟨pr, hsyn, Or.inl rfl⟩
    | none =>
      simp only [SyncedNode] at hsyn
      exact ⟨pr, hsyn, Or.inl rfl⟩
    | some .special =>
      simp only [SyncedNode] at hsyn
      exact ⟨pr, hsyn, Or.inl rfl⟩
    | some (.dir ..) =>
      simp only [SyncedNode] at hsyn
      exact ⟨pr, hsyn, Or.inl rfl⟩
  · intro m pr cs hdir
    rw [hdir] at hsyn
    simp only [SyncedNode] at hsyn
    obtain ⟨m2, cs2, hpost, hdisj, -⟩ := hsyn
    refine ⟨m2, cs2, hpost, ?_⟩
    cases hdisj with
    | inl h => exact Or.inl h
    | inr h => obtain ⟨cs3, h3⟩ := h; exact Or.inr ⟨cs3, h3⟩

/-- Witness for `sync_tree_paths`: with empty special-free roots, the synced
target holds nothing at path `x`. -/
theorem sync_tree_paths_witness :
    lookupT (syncTree [] (.dir 0 7 []) (.dir 0 7 [])) ["x"] = none :=
  ((sync_tree_paths 0 0 7 7 [] []
      (NoSpecial.dir 0 7 [] (by intro q hq; simp at hq))
      (NoSpecial.dir 0 7 [] (by intro q hq; simp at hq))
      ["x"] (by simp)).1) rfl

/-- Counterexample to C1 as stated: syncing
`S = dir 0 7 [d ↦ dir 1 7 [], f ↦ file false 3 6]` onto
`T = dir 0 7 [d ↦ dir 2 7 [], f ↦ file false 3 4, s ↦ special]` leaves the
target directory `d` with its own mtime 2 (not the source's 1), leaves the
target file `f` with its own permissions 4 (not the source's 6), and leaves
the special node `s` in place although no source node corresponds to it. -/
theorem sync_tree_paths_counterexample :
    lookupT (syncTree []
        (.dir 0 7 [("d", .dir 1 7 []), ("f", .file false 3 6)])
        (.dir 0 7 [("d", .dir 2 7 []), ("f", .file false 3 4),
          ("s", .special)])) ["d"] = some (.dir 2 7 []) ∧
    lookupT (some (.dir 0 7 [("d", .dir 1 7 []), ("f", .file false 3 6)]))
        ["d"] = some (.dir 1 7 []) ∧
    lookupT (syncTree []
        (.dir 0 7 [("d", .dir 1 7 []), ("f", .file false 3 6)])
        (.dir 0 7 [("d", .dir 2 7 []), ("f", .file false 3 4),
          ("s", .special)])) ["f"] = some (.file false 3 4) ∧
    lookupT (some (.dir 0 7 [("d", .dir 1 7 []), ("f", .file false 3 6)]))
        ["f"] = some (.file false 3 6) ∧
    lookupT (syncTree []
        (.dir 0 7 [("d", .dir 1 7 []), ("f", .file false 3 6)])
        (.dir 0 7 [("d", .dir 2 7 []), ("f", .file false 3 4),
          ("s", .special)])) ["s"] = some .special ∧
    lookupT (some (.dir 0 7 [("d", .dir 1 7 []), ("f", .file false 3 6)]))
        ["s"] = none ∧
    ¬ ((2 : Int) = 1) ∧ ¬ ((4 : Nat) = 6) := by
  have hpost : syncTree []
      (.dir 0 7 [("d", .dir 1 7 []), ("f", .file false 3 6)])
      (.dir 0 7 [("d", .dir 2 7 []), ("f", .file false 3 4), ("s", .special)])
      = some (.dir 0 7 [("f", .file false 3 4), ("d", .dir 2 7 []),
          ("s", .special)]) := by
    have hnodes : nodes_to_sync ""  ""
        (some (.dir 0 7 [("d", .dir 1 7 []), ("f", .file false 3 6)]))
        (some (.dir 0 7 [("d", .dir 2 7 []), ("f", .file false 3 4),
          ("s", .special)])) = ["d", "f", "s"] := by decide
    rw [syncTree_eq, hnodes]
    simp [recordEntries, recordEntryFor, nodes_to_sync, sideNames, names,
      childOf, find?, same_types, same_permissions, mtimeOf, permOf,
      applyEntriesL, applyEntry, applyAction, copy_node, copy_stat,
      remove_node, setChild, List.dedup]
  refine ⟨?_, rfl, ?_, rfl, ?_, rfl, by decide, by decide⟩
  · rw [hpost]; rfl
  · rw [hpost]; rfl
  · rw [hpost]; rfl

/-- Every change type in the map (recursively) is `NoChange`: what C2 claims
of the second pass's recording. -/
inductive OnlyNoChange : FileChanges → Prop
  | mk : ∀ es, (∀ e ∈ es, e.2.1 = ChangeType.NoChange) →
      (∀ e ∈ es, ∀ sub, e.2.2 = some sub → OnlyNoChange sub) →
      OnlyNoChange (.mk es)

/-- Shape of the entry the second pass records for one name, when the target
was produced by a first pass: skipped, a `NoChange` descent into a pair of
directories whose children are again pairwise synced, or a name absent on
both sides. -/
theorem secondPass_entry (scs pcs : List (String × FSTree)) (n : String)
    (rel : List String) (sm tm : Int) (sp tp : Nat)
    (hsync : ∃ pre, SyncedNode (find? scs n) pre (find? pcs n)) :
    recordEntryFor [] rel (some (.dir sm sp scs)) (some (.dir tm tp pcs)) n
      = none
    ∨ (∃ sm2 sp2 scs2 m2 cs2,
        find? scs n = some (.dir sm2 sp2 scs2) ∧
        find? pcs n = some (.dir m2 sp2 cs2) ∧
        (∀ k, ∃ pre2, SyncedNode (find? scs2 k) pre2 (find? cs2 k)) ∧
        recordEntryFor [] rel (some (.dir sm sp scs)) (some (.dir tm tp pcs)) n
          = some (ChangeType.NoChange, some (.mk (recordEntries []
              (rel ++ [n]) (some (.dir sm2 sp2 scs2)) (some (.dir m2 sp2 cs2))
              (nodes_to_sync n n (some (.dir sm2 sp2 scs2))
                (some (.dir m2 sp2 cs2)))))))
    ∨ (find? scs n = none ∧ find? pcs n = none) := by
  obtain ⟨pre, hsyn⟩ := hsync
  have hsrcdef : childOf (some (FSTree.dir sm sp scs)) n = find? scs n := rfl
  have htgtdef : childOf (some (FSTree.dir tm tp pcs)) n = find? pcs n := rfl
  rw [recordEntryFor]
  rw [if_neg (by simp)]
  split
  -- source child special: skipped
  · exact Or.inl rfl
  -- source child missing: the synced target child is missing too
  · rename_i heq1
    rw [hsrcdef] at heq1
    rw [heq1] at hsyn
    simp only [SyncedNode] at hsyn
    exact Or.inr (Or.inr ⟨heq1, hsyn⟩)
  -- source child a directory, target child missing: impossible after a pass
  · rename_i sm2 sp2 scs2 heq1 heq2
    rw [hsrcdef] at heq1
    rw [htgtdef] at heq2
    rw [heq1] at hsyn
    simp only [SyncedNode] at hsyn
    obtain ⟨m2, cs2, hp, -, -⟩ := hsyn
    rw [heq2] at hp
    exact absurd hp (by simp)
  -- source child a file, target child missing: impossible after a pass
  · rename_i lk m p heq1 heq2
    rw [hsrcdef] at heq1
    rw [htgtdef] at heq2
    rw [heq1] at hsyn
    have hpost : ∃ a b c, find? pcs n = some (FSTree.file a b c) := by
      match hpre : pre with
      | some (.file lk2 m2 p2) =>
        simp only [SyncedNode] at hsyn
        by_cases hcond : lk2 = lk ∧ m2 = m
        · rw [if_pos hcond] at hsyn; exact ⟨lk2, m2, p2, hsyn⟩
        · rw [if_neg hcond] at hsyn; exact ⟨lk, m, p, hsyn⟩
      | none => simp only [SyncedNode] at hsyn; exact ⟨lk, m, p, hsyn⟩
      | some .special =>
        simp only [SyncedNode] at hsyn; exact ⟨lk, m, p, hsyn⟩
      | some (.dir ..) =>
        simp only [SyncedNode] at hsyn; exact ⟨lk, m, p, hsyn⟩
    obtain ⟨a, b, c, hp⟩ := hpost
    rw [heq2] at hp
    exact absurd hp (by simp)
  -- source child a directory, target child the synced directory: NoChange
  · rename_i sm2 sp2 scs2 t heq1 heq2
    rw [hsrcdef] at heq1
    rw [htgtdef] at heq2
    rw [heq1] at hsyn
    simp only [SyncedNode] at hsyn
    obtain ⟨m2, cs2, hp, -, hch⟩ := hsyn
    rw [heq2] at hp
    simp only [Option.some.injEq] at hp
    subst hp
    rw [if_neg (by simp [same_types])]
    rw [if_pos (by simp [same_permissions, permOf])]
    exact Or.inr (Or.inl ⟨sm2, sp2, scs2, m2, cs2, heq1, heq2,
      fun k => ⟨childOf pre k, hch k⟩, rfl⟩)
  -- source child a file, target child the synced file: skipped
  · rename_i lk m p t heq1 heq2
    rw [hsrcdef] at heq1
    rw [htgtdef] at heq2
    rw [heq1] at hsyn
    have hpost : ∃ c, find? pcs n = some (FSTree.file lk m c) := by
      match hpre : pre with
      | some (.file lk2 m2 p2) =>
        simp only [SyncedNode] at hsyn
        by_cases hcond : lk2 = lk ∧ m2 = m
        · rw [if_pos hcond] at hsyn
          exact ⟨p2, by rw [hsyn, hcond.1, hcond.2]⟩
        · rw [if_neg hcond] at hsyn; exact ⟨p, hsyn⟩
      | none => simp only [SyncedNode] at hsyn; exact ⟨p, hsyn⟩
      | some .special => simp only [SyncedNode] at hsyn; exact ⟨p, hsyn⟩
      | some (.dir ..) => simp only [SyncedNode] at hsyn; exact ⟨p, hsyn⟩
    obtain ⟨c, hp⟩ := hpost
    rw [heq2] at hp
    simp only [Option.some.injEq] at hp
    subst hp
    rw [if_neg (by simp [same_types])]
    rw [if_neg (by simp [mtimeOf])]
    exact Or.inl rfl

/-- Master lemma for C2: recording changes between a source directory and the
result of syncing it over a directory listing yields only `NoChange`
entries (recursively), for any name list drawn from the two listings. -/
theorem secondPass_noChange (N : Nat) :
    ∀ (scs : List (String × FSTree)), sizeOf scs ≤ N →
    ∀ (pcs : List (String × FSTree)),
      (∀ n, ∃ pre, SyncedNode (find? scs n) pre (find? pcs n)) →
      ∀ (rel : List String) (l : List String),
      (∀ n ∈ l, n ∈ names scs ∨ n ∈ names pcs) →
      ∀ (sm tm : Int) (sp tp : Nat),
      OnlyNoChange (.mk (recordEntries [] rel (some (.dir sm sp scs))
        (some (.dir tm tp pcs)) l)) := by
  induction N using Nat.strong_induction_on with
  | _ N IH =>
  intro scs hN pcs hsync rel l
  induction l with
  | nil =>
    intro _ sm tm sp tp
    rw [recordEntries]
    exact OnlyNoChange.mk [] (by simp) (by simp)
  | cons n rest ihl =>
    intro hl sm tm sp tp
    have hrest := ihl (fun k hk => hl k (List.mem_cons_of_mem _ hk))
      sm tm sp tp
    rw [recordEntries]
    rcases secondPass_entry scs pcs n rel sm tm sp tp (hsync n) with
      he | ⟨sm2, sp2, scs2, m2, cs2, hfs, hfp, hch, he⟩ | ⟨hs0, hp0⟩
    · rw [he]
      simpa using hrest
    · rw [he]
      have hsub : OnlyNoChange (.mk (recordEntries [] (rel ++ [n])
          (some (.dir sm2 sp2 scs2)) (some (.dir m2 sp2 cs2))
          (nodes_to_sync n n (some (.dir sm2 sp2 scs2))
            (some (.dir m2 sp2 cs2))))) := by
        have hlt : sizeOf scs2 < sizeOf scs := sizeOf_subdir_lt hfs
        refine IH (sizeOf scs2) (lt_of_lt_of_le hlt hN) scs2 le_rfl cs2 hch
          (rel ++ [n]) _ ?_ sm2 m2 sp2 sp2
        intro k hk
        have hk2 := List.mem_dedup.mp hk
        simpa [sideNames] using List.mem_append.mp hk2
      cases hrest with
      | mk es h1 h2 =>
        refine OnlyNoChange.mk _ ?_ ?_
        · intro e hee
          rcases List.mem_append.mp hee with hh | hh
          · simp only [List.mem_singleton] at hh
            rw [hh]
          · exact h1 e hh
        · intro e hee sub hesub
          rcases List.mem_append.mp hee with hh | hh
          · simp only [List.mem_singleton] at hh
            subst hh
            simp only [Option.some.injEq] at hesub
            rw [← hesub]
            exact hsub
          · exact h2 e hh sub hesub
    · rcases hl n (List.mem_cons_self n rest) with h | h
      · exact absurd h ((find?_eq_none_iff scs n).mp hs0)
      · exact absurd h ((find?_eq_none_iff pcs n).mp hp0)

/-- **C2** (amended).  Between directory roots, provided the target tree is
special-free, recording changes a second time after one sync pass (with S and
T untouched in between) yields only `NoChange` entries — in particular zero
`UpdateNode` and zero `CreateNode` decisions. -/
theorem second_sync_only_nochange (sm tm : Int) (sp tp : Nat)
    (scs tcs : List (String × FSTree)) (hT : NoSpecial (.dir tm tp tcs)) :
    OnlyNoChange (record_changes [] [] "" "" (some (.dir sm sp scs))
      (syncTree [] (.dir sm sp scs) (.dir tm tp tcs))) := by
  rw [syncTree_eq]
  rw [record_changes]
  refine secondPass_noChange (sizeOf scs) scs le_rfl _ ?_ [] _ ?_ sm tm sp tp
  · intro n
    refine ⟨find? tcs n, ?_⟩
    have h := syncTree_child sm tm sp tp scs tcs hT n
    rw [syncTree_eq] at h
    exact h
  · intro n hn
    have hn2 := List.mem_dedup.mp hn
    simpa [sideNames] using List.mem_append.mp hn2

/-- Witness for `second_sync_only_nochange` at a pair of empty roots. -/
theorem second_sync_only_nochange_witness :
    OnlyNoChange (record_changes [] [] "" "" (some (.dir 0 7 []))
      (syncTree [] (.dir 0 7 []) (.dir 0 7 []))) :=
  second_sync_only_nochange 0 0 7 7 [] []
    (NoSpecial.dir 0 7 [] (by intro q hq; simp at hq))

/-- Counterexample to C2 as stated: a special node in the target under a name
absent in the source survives the first pass (`remove_node` removes only
files and directories), so the second pass records `RemoveNode` for it
again. -/
theorem second_sync_counterexample :
    record_changes [] [] "" "" (some (.dir 0 7 []))
        (syncTree [] (.dir 0 7 []) (.dir 0 7 [("s", .special)]))
      = FileChanges.mk [("s", ChangeType.RemoveNode, none)] ∧
    ChangeType.RemoveNode ≠ ChangeType.NoChange := by
  refine ⟨?_, by decide⟩
  have hpost : syncTree [] (.dir 0 7 []) (.dir 0 7 [("s", .special)])
      = some (.dir 0 7 [("s", .special)]) := by
    have hnodes : nodes_to_sync "" "" (some (.dir 0 7 ([] : List (String × FSTree))))
        (some (.dir 0 7 [("s", .special)])) = ["s"] := by decide
    rw [syncTree_eq, hnodes]
    simp [recordEntries, recordEntryFor, childOf, find?, applyEntriesL,
      applyEntry, applyAction, remove_node, setChild]
  rw [hpost]
  have hnodes2 : nodes_to_sync "" "" (some (.dir 0 7 ([] : List (String × FSTree))))
      (some (.dir 0 7 [("s", .special)])) = ["s"] := by decide
  rw [record_changes, hnodes2]
  simp [recordEntries, recordEntryFor, childOf, find?]

/-- **C5** (code bug, tree mode).  For corresponding non-directories of the
same type with equal integer-second mtimes but different permission bits,
`record_changes` records nothing at all (the mtime guard subsumes the case),
so the default tree mode applies no action — in particular not the
`copy_stat` the spec's table promises: the target file keeps permissions 384
although `copy_stat` would have set the source's 420. -/
theorem tree_mode_skips_perm_only_diff :
    record_changes [] [] "" ""
        (some (.dir 0 7 [("f", .file false 1 420)]))
        (some (.dir 0 7 [("f", .file false 1 384)]))
      = FileChanges.mk [] ∧
    lookupT (syncTree [] (.dir 0 7 [("f", .file false 1 420)])
        (.dir 0 7 [("f", .file false 1 384)])) ["f"]
      = some (.file false 1 384) ∧
    copy_stat (some (.file false 1 420)) (some (.file false 1 384))
      = some (.file false 1 420) ∧
    ¬ ((384 : Nat) = 420) := by
  have hnodes : nodes_to_sync "" ""
      (some (.dir 0 7 [("f", .file false 1 420)]))
      (some (.dir 0 7 [("f", .file false 1 384)])) = ["f"] := by decide
  have hrec : record_changes [] [] "" ""
      (some (.dir 0 7 [("f", .file false 1 420)]))
      (some (.dir 0 7 [("f", .file false 1 384)])) = FileChanges.mk [] := by
    rw [record_changes, hnodes]
    simp [recordEntries, recordEntryFor, childOf, find?, same_types, mtimeOf]
  refine ⟨hrec, ?_, rfl, by decide⟩
  rw [syncTree_eq, hnodes]
  simp only [recordEntries, recordEntryFor, childOf, find?, same_types,
    mtimeOf, applyEntriesL]
  simp [lookupT, find?, applyEntriesL]

/-! ### `FileSystem.rmtree` (claim C6)

The three removal strategies, modelled as transforms of the node at the root
path (`none` = absent).  Errors raised by the Python calls (`os.scandir` /
`os.rmdir` on unsuitable nodes) are `Except.error`.  The task system is run
on the sequential schedule (`add_or_run` executing synchronously); the
walk-up of `try_remove_parents` removes an emptied directory either in the
child's call or in the parent's own epilogue, which on this schedule yields
the same final state as the bottom-up removal written here. -/

inductive FsErr where
  | notADirectory
  | fileNotFound
  | dirNotEmpty
deriving DecidableEq

/-- The loop of `remove_fds.recursive` over a directory's entries: `os.unlink`
for every non-directory (including specials), recursion plus `os.rmdir` for a
directory.  The value is the listing that remains (what `os.rmdir` of the
parent will see). -/
def removeFdsRec : List (String × FSTree) → Except FsErr (List (String × FSTree))
  | [] => .ok []
  | (_, .dir _ _ cs) :: rest =>
    (match removeFdsRec cs with
      | .error e => .error e
      | .ok [] => removeFdsRec rest
      | .ok (_ :: _) => .error .dirNotEmpty)
  | (_, .file ..) :: rest => removeFdsRec rest
  | (_, .special) :: rest => removeFdsRec rest
termination_by l => sizeOf l
decreasing_by
  all_goals simp_wf
  all_goals omega

/-- `rmtree` with fd-API support: `remove_fds` — `if not is_dir(root): return`
leaves a non-directory root untouched; for a directory, remove the contents
and then `os.rmdir(root)`. -/
def remove_fds (root : Option FSTree) : Except FsErr (Option FSTree) :=
  match root with
  | some (.dir _ _ cs) =>
    (match removeFdsRec cs with
      | .error e => .error e
      | .ok [] => .ok none
      | .ok (_ :: _) => .error .dirNotEmpty)
  | t => .ok t

/-- `record_nodes`: `NoChange` plus subchanges for a directory entry,
`RemoveNode` for any other entry. -/
def recordRmEntries : List (String × FSTree) →
    List (String × ChangeType × Option FileChanges)
  | [] => []
  | (n, .dir _ _ cs) :: rest =>
    (n, ChangeType.NoChange, some (.mk (recordRmEntries cs)))
      :: recordRmEntries rest
  | (n, .file ..) :: rest =>
    (n, ChangeType.RemoveNode, none) :: recordRmEntries rest
  | (n, .special) :: rest =>
    (n, ChangeType.RemoveNode, none) :: recordRmEntries rest
termination_by l => sizeOf l
decreasing_by
  all_goals simp_wf
  all_goals omega

/-- `remove_nodes.recursive` on the recorded changes (sequential schedule):
`remove_file` for `RemoveNode` (files only — specials stay), descend into
subchanges, and `try_remove_parents` drops a directory once emptied. -/
def removeNodesGo (cs : List (String × FSTree)) :
    List (String × ChangeType × Option FileChanges) → List (String × FSTree)
  | [] => cs
  | (n, c, none) :: rest =>
    removeNodesGo
      (if c = ChangeType.RemoveNode then
        (match find? cs n with
          | some (.file ..) => setChild cs n none
          | _ => cs)
       else cs) rest
  | (n, _, some (.mk sub)) :: rest =>
    removeNodesGo
      (match find? cs n with
        | some (.dir m2 p2 ccs) =>
          (match removeNodesGo ccs sub with
            | [] => setChild cs n none
            | q :: l => setChild cs n (some (.dir m2 p2 (q :: l))))
        | _ => cs) rest
termination_by l => sizeOf l
decreasing_by
  all_goals simp_wf
  all_goals omega

/-- `rmtree` default (tree) strategy: `record_nodes` then `remove_nodes`.
`os.scandir(root)` raises on a missing or non-directory root. -/
def remove_nodes_tree (root : Option FSTree) : Except FsErr (Option FSTree) :=
  match root with
  | some (.dir m p cs) =>
    (match removeNodesGo cs (recordRmEntries cs) with
      | [] => .ok none
      | q :: l => .ok (some (.dir m p (q :: l))))
  | none => .error .fileNotFound
  | some _ => .error .notADirectory

/-- `remove_content.recursive` (save-memory strategy, sequential schedule):
`remove_file` for non-directories (specials stay), recursion for directories,
`try_remove_parents` drops an emptied directory. -/
def removeContentRec : List (String × FSTree) → List (String × FSTree)
  | [] => []
  | (n, .dir m2 p2 cs) :: rest =>
    (match removeContentRec cs with
      | [] => removeContentRec rest
      | q :: l => (n, .dir m2 p2 (q :: l)) :: removeContentRec rest)
  | (_, .file ..) :: rest => removeContentRec rest
  | (n, .special) :: rest => (n, .special) :: removeContentRec rest
termination_by l => sizeOf l
decreasing_by
  all_goals simp_wf
  all_goals omega

/-- `rmtree` with save_memory: `remove_content` on the root.
`os.scandir(root)` raises on a missing or non-directory root. -/
def remove_content (root : Option FSTree) : Except FsErr (Option FSTree) :=
  match root with
  | some (.dir m p cs) =>
    (match removeContentRec cs with
      | [] => .ok none
      | q :: l => .ok (some (.dir m p (q :: l))))
  | none => .error .fileNotFound
  | some _ => .error .notADirectory

theorem removeFdsRec_ok (N : Nat) :
    ∀ cs : List (String × FSTree), sizeOf cs ≤ N →
      removeFdsRec cs = .ok [] := by
  induction N using Nat.strong_induction_on with
  | _ N IH =>
  intro cs hN
  match cs with
  | [] => rw [removeFdsRec]
  | (n, .dir m2 p2 ccs) :: rest =>
    have h1 : sizeOf ccs < sizeOf ((n, FSTree.dir m2 p2 ccs) :: rest) := by
      simp
      try omega
    have h2 : sizeOf rest < sizeOf ((n, FSTree.dir m2 p2 ccs) :: rest) := by
      simp
      try omega
    rw [removeFdsRec]
    rw [IH (sizeOf ccs) (lt_of_lt_of_le h1 hN) ccs le_rfl]
    exact IH (sizeOf rest) (lt_of_lt_of_le h2 hN) rest le_rfl
  | (n, .file lk m2 p2) :: rest =>
    have h2 : sizeOf rest < sizeOf ((n, FSTree.file lk m2 p2) :: rest) := by
      simp
      try omega
    rw [removeFdsRec]
    exact IH (sizeOf rest) (lt_of_lt_of_le h2 hN) rest le_rfl
  | (n, .special) :: rest =>
    have h2 : sizeOf rest < sizeOf ((n, FSTree.special) :: rest) := by
      simp
      try omega
    rw [removeFdsRec]
    exact IH (sizeOf rest) (lt_of_lt_of_le h2 hN) rest le_rfl

theorem removeContentRec_nil (N : Nat) :
    ∀ cs : List (String × FSTree), sizeOf cs ≤ N →
      (∀ q ∈ cs, NoSpecial q.2) → removeContentRec cs = [] := by
  induction N using Nat.strong_induction_on with
  | _ N IH =>
  intro cs hN hns
  match cs with
  | [] => rw [removeContentRec]
  | (n, .dir m2 p2 ccs) :: rest =>
    have h1 : sizeOf ccs < sizeOf ((n, FSTree.dir m2 p2 ccs) :: rest) := by
      simp
      try omega
    have h2 : sizeOf rest < sizeOf ((n, FSTree.dir m2 p2 ccs) :: rest) := by
      simp
      try omega
    have hnsc : ∀ q ∈ ccs, NoSpecial q.2 :=
      NoSpecial.children_of_dir (hns _ (List.mem_cons_self _ _))
    rw [removeContentRec]
    rw [IH (sizeOf ccs) (lt_of_lt_of_le h1 hN) ccs le_rfl hnsc]
    exact IH (sizeOf rest) (lt_of_lt_of_le h2 hN) rest le_rfl
      (fun q hq => hns q (List.mem_cons_of_mem _ hq))
  | (n, .file lk m2 p2) :: rest =>
    have h2 : sizeOf rest < sizeOf ((n, FSTree.file lk m2 p2) :: rest) := by
      simp
      try omega
    rw [removeContentRec]
    exact IH (sizeOf rest) (lt_of_lt_of_le h2 hN) rest le_rfl
      (fun q hq => hns q (List.mem_cons_of_mem _ hq))
  | (n, .special) :: rest =>
    exact absurd (hns _ (List.mem_cons_self _ _)) (by intro h; cases h)

/-- Master lemma for the tree strategy: applying the recorded removals to a
special-free listing (or any listing holding a sub-collection of its names)
empties it. -/
theorem removeNodesGo_empties (N : Nat) :
    ∀ (rest : List (String × FSTree)), sizeOf rest ≤ N →
    (∀ q ∈ rest, NoSpecial q.2) →
    ∀ (cs : List (String × FSTree)),
      (∀ q ∈ cs, NoSpecial q.2) →
      (∀ k, find? cs k = none ∨ find? cs k = find? rest k) →
      (∀ k, k ∈ names cs → k ∈ names rest) →
      removeNodesGo cs (recordRmEntries rest) = [] := by
  induction N using Nat.strong_induction_on with
  | _ N IH =>
  intro rest hN hrestNS cs hcsNS hfind hnames
  match rest with
  | [] =>
    rw [recordRmEntries, removeNodesGo]
    match cs, hnames with
    | [], _ => rfl
    | q :: l, hnames =>
      exact absurd (hnames q.1 (by simp [names])) (by simp [names])
  | (n, v) :: rest2 =>
    have hsr2 : sizeOf rest2 < sizeOf ((n, v) :: rest2) := by
      simp
      try omega
    have hrest2NS : ∀ q ∈ rest2, NoSpecial q.2 :=
      fun q hq => hrestNS q (List.mem_cons_of_mem _ hq)
    have htail : ∀ cs2 : List (String × FSTree),
        (∀ q ∈ cs2, NoSpecial q.2) →
        (∀ k, find? cs2 k = none ∨ find? cs2 k = find? rest2 k) →
        (∀ k, k ∈ names cs2 → k ∈ names rest2) →
        removeNodesGo cs2 (recordRmEntries rest2) = [] :=
      fun cs2 a b c =>
        IH (sizeOf rest2) (lt_of_lt_of_le hsr2 hN) rest2 le_rfl hrest2NS
          cs2 a b c
    have hunch : find? cs n = none →
        removeNodesGo cs (recordRmEntries rest2) = [] := by
      intro hf0
      refine htail cs hcsNS ?_ ?_
      · intro k
        by_cases hk : k = n
        · subst hk; exact Or.inl hf0
        · rcases hfind k with h | h
          · exact Or.inl h
          · right
            rw [h]
            simp only [find?]
            rw [if_neg (fun he => hk he.symm)]
      · intro k hk
        have hmem := hnames k hk
        simp only [names, List.map_cons] at hmem
        rcases List.mem_cons.mp hmem with h | h
        · subst h; exact absurd hk ((find?_eq_none_iff cs k).mp hf0)
        · exact h
    have hrem : removeNodesGo (setChild cs n none)
        (recordRmEntries rest2) = [] := by
      refine htail _ ?_ ?_ ?_
      · intro q hq
        exact hcsNS q (List.mem_filter.mp hq).1
      · intro k
        by_cases hk : k = n
        · subst hk; exact Or.inl (find?_setChild_self cs k none)
        · rw [find?_setChild_ne cs n k none hk]
          rcases hfind k with h | h
          · exact Or.inl h
          · right
            rw [h]
            simp only [find?]
            rw [if_neg (fun he => hk he.symm)]
      · intro k hk
        obtain ⟨q, hq, hq1⟩ := List.mem_map.mp hk
        have hq2 := List.mem_filter.mp hq
        have hqn : q.1 ≠ n := by simpa using hq2.2
        have hkcs : k ∈ names cs := List.mem_map.mpr ⟨q, hq2.1, hq1⟩
        have hmem := hnames k hkcs
        simp only [names, List.map_cons] at hmem
        rcases List.mem_cons.mp hmem with h | h
        · exact absurd (hq1.trans h) hqn
        · exact h
    cases v with
    | special =>
      exact absurd (hrestNS _ (List.mem_cons_self _ _)) (by intro h; cases h)
    | file lk fm fp =>
      rw [recordRmEntries, removeNodesGo, if_pos rfl]
      rcases hfind n with hf | hf
      · rw [hf]
        exact hunch hf
      · have hf' : find? cs n = some (.file lk fm fp) := by
          rw [hf]; simp [find?]
        rw [hf']
        exact hrem
    | dir dm dp dcs =>
      rw [recordRmEntries, removeNodesGo]
      rcases hfind n with hf | hf
      · rw [hf]
        exact hunch hf
      · have hf' : find? cs n = some (.dir dm dp dcs) := by
          rw [hf]; simp [find?]
        rw [hf']
        have hdns : NoSpecial (.dir dm dp dcs) :=
          hrestNS _ (List.mem_cons_self _ _)
        have hlt : sizeOf dcs < sizeOf ((n, FSTree.dir dm dp dcs) :: rest2) := by
          simp
          try omega
        have hinner : removeNodesGo dcs (recordRmEntries dcs) = [] :=
          IH (sizeOf dcs) (lt_of_lt_of_le hlt hN) dcs le_rfl
            hdns.children_of_dir dcs hdns.children_of_dir
            (fun k => Or.inr rfl) (fun k hk => hk)
        show removeNodesGo
          (match removeNodesGo dcs (recordRmEntries dcs) with
            | [] => setChild cs n none
            | q :: l => setChild cs n (some (.dir dm dp (q :: l))))
          (recordRmEntries rest2) = []
        rw [hinner]
        exact hrem

/-- **C6** (amended).  Under the sequential task schedule: for a directory
root whose tree is special-free, all three `rmtree` strategies (fd-API, tree,
save-memory) return with the root removed; for a file root, the fd-API
strategy returns leaving the root in place (`if not is_dir(root): return`),
while the other two strategies raise from `os.scandir(root)` instead of
returning. -/
theorem rmtree_outcomes (m : Int) (p : Nat) (cs : List (String × FSTree))
    (hns : ∀ q ∈ cs, NoSpecial q.2) :
    (remove_fds (some (.dir m p cs)) = .ok none ∧
     remove_nodes_tree (some (.dir m p cs)) = .ok none ∧
     remove_content (some (.dir m p cs)) = .ok none) ∧
    (∀ lk fm fp,
      remove_fds (some (.file lk fm fp)) = .ok (some (.file lk fm fp)) ∧
      remove_nodes_tree (some (.file lk fm fp)) = .error FsErr.notADirectory ∧
      remove_content (some (.file lk fm fp)) = .error FsErr.notADirectory) := by
  refine ⟨⟨?_, ?_, ?_⟩, fun lk fm fp => ⟨rfl, rfl, rfl⟩⟩
  · show (match removeFdsRec cs with
      | .error e => .error e
      | .ok [] => .ok none
      | .ok (_ :: _) => .error .dirNotEmpty) = Except.ok none
    rw [removeFdsRec_ok (sizeOf cs) cs le_rfl]
  · show (match removeNodesGo cs (recordRmEntries cs) with
      | [] => (Except.ok none : Except FsErr (Option FSTree))
      | q :: l => Except.ok (some (FSTree.dir m p (q :: l))))
        = Except.ok none
    rw [removeNodesGo_empties (sizeOf cs) cs le_rfl hns cs hns
      (fun k => Or.inr rfl) (fun k hk => hk)]
  · show (match removeContentRec cs with
      | [] => (Except.ok none : Except FsErr (Option FSTree))
      | q :: l => Except.ok (some (FSTree.dir m p (q :: l))))
        = Except.ok none
    rw [removeContentRec_nil (sizeOf cs) cs le_rfl hns]

/-- Witness for `rmtree_outcomes`: a directory holding one file is removed by
all three strategies. -/
theorem rmtree_outcomes_witness :
    remove_fds (some (.dir 0 7 [("f", .file false 0 420)])) = .ok none ∧
    remove_nodes_tree (some (.dir 0 7 [("f", .file false 0 420)]))
      = .ok none ∧
    remove_content (some (.dir 0 7 [("f", .file false 0 420)]))
      = .ok none :=
  (rmtree_outcomes 0 7 [("f", .file false 0 420)]
    (by
      intro q hq
      simp only [List.mem_singleton] at hq
      subst hq
      exact NoSpecial.file false 0 420)).1

/-- Counterexample to C6 as stated: with fd-API support and a plain file at
the root path, `rmtree` returns successfully while the path still exists. -/
theorem rmtree_nondir_counterexample :
    remove_fds (some (.file false 0 420)) = .ok (some (.file false 0 420)) ∧
    some (.file false 0 420) ≠ (none : Option FSTree) :=
  ⟨rfl, by simp⟩

end FileSystem

end RsyncBackup
